import Mathlib

/-!
Verification of the Round-Robin scheduling engine of `src/app.js`.

The scheduler core consists of the mutable simulation state (process records,
ready queue, clock, CPU slot), the helpers `getQuantum`, `arrivalsStep`,
`allFinished`, the main `tick` function and `deepReset`.  Rendering, DOM and
3D-animation code is outside the core and not modelled.  JavaScript object
references into the single `processes` array are modelled by indexing process
records by their `id` string: the ready queue and the CPU slot hold ids, and
every mutation goes through the process store.
-/

namespace RR

/-- Static process definition: the `{id, burstTime, arrivalTime}` part of an
entry of `initialProcesses` in `src/app.js` (the `color` field is
rendering-only and not part of the core). -/
structure ProcDef where
  id : String
  burstTime : Nat
  arrivalTime : Nat
deriving DecidableEq, Repr

/-- A process record as built by `deepReset` in `src/app.js`: the static
definition plus the mutable simulation fields. -/
structure Process where
  id : String
  burstTime : Nat
  arrivalTime : Nat
  remainingTime : Nat
  waitingTime : Nat
  completionTime : Option Nat
  arrived : Bool
  finished : Bool
deriving DecidableEq, Repr

/-- The CPU slot object `currentCPU = { proc, qLeft }` of `src/app.js`;
`proc` holds the id of the running process. -/
structure CPUSlot where
  proc : String
  qLeft : Nat
deriving DecidableEq, Repr

/-- The engine state of `src/app.js`: the `processes` array, the `readyQueue`
(ids of the referenced process objects), the clock `currentTime`, and the
optional CPU slot `currentCPU`. -/
structure EngineState where
  processes : List Process
  readyQueue : List String
  currentTime : Nat
  currentCPU : Option CPUSlot
deriving DecidableEq, Repr

/-- Function `getQuantum` of `src/app.js` (lines 53-56): parse the quantum
input field; if the parse yields a finite value strictly greater than 0 that
value is returned, otherwise the default 1 is substituted.  `none` models a
failed parse (`parseInt` returning `NaN`). -/
def getQuantum (input : Option Int) : Int :=
  match input with
  | some q => if 0 < q then q else 1
  | none => 1

/-- The arrival condition tested by `arrivalsStep` in `src/app.js`:
`!p.arrived && p.arrivalTime <= currentTime`. -/
def arrivesAt (now : Nat) (p : Process) : Bool :=
  !p.arrived && decide (p.arrivalTime ≤ now)

/-- Mutation `p.arrived = true` performed by `arrivalsStep`. -/
def markArrived (p : Process) : Process := { p with arrived := true }

/-- Mutation `q.waitingTime += 1` performed in step 3 of `tick`. -/
def incWait (p : Process) : Process := { p with waitingTime := p.waitingTime + 1 }

/-- Mutation `p.remainingTime = Math.max(0, p.remainingTime - 1)`; on `Nat`
truncated subtraction is exactly `max 0 (r - 1)`. -/
def decRem (p : Process) : Process := { p with remainingTime := p.remainingTime - 1 }

/-- Mutations `p.finished = true; p.completionTime = currentTime` performed on
completion in `tick`. -/
def finishAt (t : Nat) (p : Process) : Process :=
  { p with finished := true, completionTime := some t }

/-- Mutating the process object with id `i` inside the store: JavaScript
mutates the shared object, which every alias (queue, CPU slot) observes. -/
def updateProc (ps : List Process) (i : String) (f : Process → Process) : List Process :=
  ps.map (fun p => if p.id = i then f p else p)

/-- The loop `for (const q of readyQueue) q.waitingTime += 1` of `tick`
step 3, applied through the store. -/
def waitQueue (queue : List String) (ps : List Process) : List Process :=
  queue.foldl (fun acc i => updateProc acc i incWait) ps

/-- Dereferencing an id in the store (a JavaScript object reference). -/
def findProc (ps : List Process) (i : String) : Option Process :=
  ps.find? (fun p => p.id == i)

/-- The per-record effect of `arrivalsStep`: mark arrived when the arrival
condition holds, otherwise leave the record alone. -/
def arriveOne (now : Nat) (p : Process) : Process :=
  if arrivesAt now p then markArrived p else p

/-- Ids pushed to the ready queue by one `arrivalsStep` call, in process-list
order. -/
def newArrivals (now : Nat) (ps : List Process) : List String :=
  (ps.filter (arrivesAt now)).map (fun p => p.id)

/-- Function `arrivalsStep` of `src/app.js` (lines 277-287): every process not
yet arrived whose `arrivalTime <= currentTime` is marked arrived and pushed to
the tail of the ready queue, in process-list order. -/
def arrivalsStep (s : EngineState) : EngineState :=
  { s with
    processes := s.processes.map (arriveOne s.currentTime),
    readyQueue := s.readyQueue ++ newArrivals s.currentTime s.processes }

/-- Function `allFinished` of `src/app.js` (line 288). -/
def allFinished (s : EngineState) : Bool := s.processes.all (fun p => p.finished)

/-- Step 2 of `tick` (lines 295-301): if the CPU is idle and the ready queue
is non-empty, shift the queue head into the CPU slot with `qLeft` set to the
quantum value read at this dispatch. -/
def dispatchStep (qn : Nat) (s : EngineState) : EngineState :=
  match s.currentCPU with
  | some _ => s
  | none =>
    match s.readyQueue with
    | [] => s
    | i :: rest => { s with readyQueue := rest, currentCPU := some ⟨i, qn⟩ }

/-- Step 3 of `tick` (lines 304-316 and the idle branch 337-344): when the CPU
is occupied, every queue resident accrues one unit of waiting time, the running
process executes one unit, `qLeft` decreases (floored at 0), and the clock
advances by 1; when the CPU is idle only the clock advances. -/
def execStep (s : EngineState) : EngineState :=
  match s.currentCPU with
  | some c =>
    { s with
      processes := updateProc (waitQueue s.readyQueue s.processes) c.proc decRem,
      currentCPU := some ⟨c.proc, c.qLeft - 1⟩,
      currentTime := s.currentTime + 1 }
  | none => { s with currentTime := s.currentTime + 1 }

/-- Completion / quantum-expiry handling of `tick` (lines 322-336), evaluated
only when the CPU was occupied, after the post-execution arrival scan: if the
running process's `remainingTime` is 0 it is marked finished with
`completionTime = currentTime` and the CPU is cleared without re-enqueuing;
else if `qLeft` is 0 the process is pushed to the tail of the ready queue and
the CPU is cleared. -/
def settleStep (s : EngineState) : EngineState :=
  match s.currentCPU with
  | some c =>
    match findProc s.processes c.proc with
    | some p =>
      if p.remainingTime = 0 then
        { s with processes := updateProc s.processes c.proc (finishAt s.currentTime),
                 currentCPU := none }
      else if c.qLeft = 0 then
        { s with readyQueue := s.readyQueue ++ [c.proc], currentCPU := none }
      else s
    | none => s
  | none => s

/-- Function `tick` of `src/app.js` (lines 290-351): pre arrival scan, dispatch
(reading `getQuantum()` at the dispatch instant), execution or idle unit, post
arrival scan at the new clock value, then completion / preemption handling. -/
def tick (qInput : Option Int) (s : EngineState) : EngineState :=
  settleStep (arrivalsStep (execStep (dispatchStep (getQuantum qInput).toNat (arrivalsStep s))))

/-- The process record built by `deepReset` from one static definition. -/
def initProc (d : ProcDef) : Process :=
  { id := d.id, burstTime := d.burstTime, arrivalTime := d.arrivalTime,
    remainingTime := d.burstTime, waitingTime := 0, completionTime := none,
    arrived := false, finished := false }

/-- Function `deepReset` of `src/app.js` (lines 369-397), restricted to the
scheduler core: clock 0, CPU slot empty, ready queue empty, process set rebuilt
from the configured definitions with all mutable fields reinitialized. -/
def deepReset (defs : List ProcDef) : EngineState :=
  { processes := defs.map initProc, readyQueue := [], currentTime := 0, currentCPU := none }

/-- Iterating `tick` with a fixed quantum input, as the interval driver does. -/
def runTicks (qInput : Option Int) (s : EngineState) : Nat → EngineState
  | 0 => s
  | n + 1 => runTicks qInput (tick qInput s) n

/-- The per-record effect of the execution sub-step on the process store when
the CPU slot holds the process with id `i` and the ready queue is `Q`: queue
residents accrue one waiting unit (once per queue occurrence), and the running
process executes one unit. -/
def execOne (Q : List String) (i : String) (p : Process) : Process :=
  if p.id = i then decRem { p with waitingTime := p.waitingTime + Q.count p.id }
  else { p with waitingTime := p.waitingTime + Q.count p.id }

/-- The process with id `i` occupies the CPU slot of `s`. -/
def onCPU (s : EngineState) (i : String) : Prop :=
  ∃ c, s.currentCPU = some c ∧ c.proc = i

/-- Every process not yet arrived has a strictly future arrival time: the
state of affairs immediately after an arrival scan. -/
def Scanned (s : EngineState) : Prop :=
  ∀ p ∈ s.processes, p.arrived = false → s.currentTime < p.arrivalTime

/-- The core state invariant, in the weak form that also holds between the
execution sub-step and the completion check of one `tick` (where the running
process may momentarily have `remainingTime = 0` without being marked
finished yet). -/
structure InvE (s : EngineState) : Prop where
  ids_nodup : (s.processes.map (fun p => p.id)).Nodup
  queue_nodup : s.readyQueue.Nodup
  queue_mem : ∀ i ∈ s.readyQueue,
    ∃ p, p ∈ s.processes ∧ p.id = i ∧ p.arrived = true ∧ p.finished = false
  cpu_mem : ∀ c, s.currentCPU = some c →
    ∃ p, p ∈ s.processes ∧ p.id = c.proc ∧ p.arrived = true ∧ p.finished = false
  cpu_queue : ∀ c, s.currentCPU = some c → c.proc ∉ s.readyQueue
  not_arrived : ∀ p ∈ s.processes, p.arrived = false →
    p.remainingTime = p.burstTime ∧ p.waitingTime = 0 ∧ p.finished = false ∧
    p.completionTime = none ∧ s.currentTime ≤ p.arrivalTime ∧
    p.id ∉ s.readyQueue ∧ ¬ onCPU s p.id
  active : ∀ p ∈ s.processes, p.arrived = true → p.finished = false →
    (p.id ∈ s.readyQueue ∨ onCPU s p.id) ∧
    p.arrivalTime + p.waitingTime + (p.burstTime - p.remainingTime) = s.currentTime ∧
    p.remainingTime ≤ p.burstTime ∧ p.completionTime = none
  done : ∀ p ∈ s.processes, p.finished = true →
    p.arrived = true ∧ p.remainingTime = 0 ∧ p.id ∉ s.readyQueue ∧ ¬ onCPU s p.id ∧
    ∃ ct, p.completionTime = some ct ∧ ct ≤ s.currentTime ∧
      p.arrivalTime + p.burstTime + p.waitingTime = ct
  bursts_pos : ∀ p ∈ s.processes, 1 ≤ p.burstTime

/-- Every unfinished process still has execution units left. -/
def RemPos (s : EngineState) : Prop :=
  ∀ p ∈ s.processes, p.finished = false → 1 ≤ p.remainingTime

/-- Every unfinished process other than (possibly) the CPU occupant still has
execution units left. -/
def RemPosExc (s : EngineState) : Prop :=
  ∀ p ∈ s.processes, p.finished = false → onCPU s p.id ∨ 1 ≤ p.remainingTime

/-- The full state invariant holding after `deepReset` and after every
complete `tick`. -/
def Inv (s : EngineState) : Prop := InvE s ∧ RemPos s

/-- Total remaining execution demand of the state. -/
def totalRem (s : EngineState) : Nat :=
  (s.processes.map (fun p => p.remainingTime)).sum

/-- The largest arrival time among the processes of the state. -/
def maxArrival (s : EngineState) : Nat :=
  (s.processes.map (fun p => p.arrivalTime)).foldr max 0

/-! ### Record-level lemmas -/

@[simp] theorem arriveOne_id (now : Nat) (p : Process) : (arriveOne now p).id = p.id := by
  unfold arriveOne
  split <;> rfl

@[simp] theorem arriveOne_burstTime (now : Nat) (p : Process) :
    (arriveOne now p).burstTime = p.burstTime := by
  unfold arriveOne
  split <;> rfl

@[simp] theorem arriveOne_arrivalTime (now : Nat) (p : Process) :
    (arriveOne now p).arrivalTime = p.arrivalTime := by
  unfold arriveOne
  split <;> rfl

@[simp] theorem arriveOne_remainingTime (now : Nat) (p : Process) :
    (arriveOne now p).remainingTime = p.remainingTime := by
  unfold arriveOne
  split <;> rfl

@[simp] theorem arriveOne_waitingTime (now : Nat) (p : Process) :
    (arriveOne now p).waitingTime = p.waitingTime := by
  unfold arriveOne
  split <;> rfl

@[simp] theorem arriveOne_completionTime (now : Nat) (p : Process) :
    (arriveOne now p).completionTime = p.completionTime := by
  unfold arriveOne
  split <;> rfl

@[simp] theorem arriveOne_finished (now : Nat) (p : Process) :
    (arriveOne now p).finished = p.finished := by
  unfold arriveOne
  split <;> rfl

theorem arrivesAt_iff (now : Nat) (p : Process) :
    arrivesAt now p = true ↔ p.arrived = false ∧ p.arrivalTime ≤ now := by
  unfold arrivesAt
  simp [Bool.and_eq_true, Bool.not_eq_true', decide_eq_true_iff]

theorem arriveOne_arrived (now : Nat) (p : Process) :
    (arriveOne now p).arrived = (p.arrived || decide (p.arrivalTime ≤ now)) := by
  unfold arriveOne arrivesAt markArrived
  cases hp : p.arrived <;> cases hd : decide (p.arrivalTime ≤ now) <;> simp [hp, hd]

theorem arriveOne_of_arrived (now : Nat) (p : Process) (h : p.arrived = true) :
    arriveOne now p = p := by
  unfold arriveOne arrivesAt
  simp [h]

@[simp] theorem execOne_id (Q : List String) (i : String) (p : Process) :
    (execOne Q i p).id = p.id := by
  unfold execOne decRem
  split <;> rfl

@[simp] theorem execOne_burstTime (Q : List String) (i : String) (p : Process) :
    (execOne Q i p).burstTime = p.burstTime := by
  unfold execOne decRem
  split <;> rfl

@[simp] theorem execOne_arrivalTime (Q : List String) (i : String) (p : Process) :
    (execOne Q i p).arrivalTime = p.arrivalTime := by
  unfold execOne decRem
  split <;> rfl

@[simp] theorem execOne_arrived (Q : List String) (i : String) (p : Process) :
    (execOne Q i p).arrived = p.arrived := by
  unfold execOne decRem
  split <;> rfl

@[simp] theorem execOne_finished (Q : List String) (i : String) (p : Process) :
    (execOne Q i p).finished = p.finished := by
  unfold execOne decRem
  split <;> rfl

@[simp] theorem execOne_completionTime (Q : List String) (i : String) (p : Process) :
    (execOne Q i p).completionTime = p.completionTime := by
  unfold execOne decRem
  split <;> rfl

theorem execOne_waitingTime (Q : List String) (i : String) (p : Process) :
    (execOne Q i p).waitingTime = p.waitingTime + Q.count p.id := by
  unfold execOne decRem
  split <;> rfl

theorem execOne_remainingTime (Q : List String) (i : String) (p : Process) :
    (execOne Q i p).remainingTime =
      if p.id = i then p.remainingTime - 1 else p.remainingTime := by
  unfold execOne decRem
  by_cases h : p.id = i <;> simp [h]

@[simp] theorem finishAt_id (t : Nat) (p : Process) : (finishAt t p).id = p.id := rfl

@[simp] theorem finishAt_burstTime (t : Nat) (p : Process) :
    (finishAt t p).burstTime = p.burstTime := rfl

@[simp] theorem finishAt_arrivalTime (t : Nat) (p : Process) :
    (finishAt t p).arrivalTime = p.arrivalTime := rfl

@[simp] theorem finishAt_remainingTime (t : Nat) (p : Process) :
    (finishAt t p).remainingTime = p.remainingTime := rfl

@[simp] theorem finishAt_waitingTime (t : Nat) (p : Process) :
    (finishAt t p).waitingTime = p.waitingTime := rfl

@[simp] theorem finishAt_arrived (t : Nat) (p : Process) :
    (finishAt t p).arrived = p.arrived := rfl

@[simp] theorem finishAt_finished (t : Nat) (p : Process) :
    (finishAt t p).finished = true := rfl

@[simp] theorem finishAt_completionTime (t : Nat) (p : Process) :
    (finishAt t p).completionTime = some t := rfl

/-! ### Store-level lemmas -/

theorem eq_of_mem_id {ps : List Process} {p q : Process}
    (hn : (ps.map (fun p => p.id)).Nodup) (hp : p ∈ ps) (hq : q ∈ ps)
    (h : p.id = q.id) : p = q :=
  List.inj_on_of_nodup_map hn hp hq h

theorem updateProc_eq_map (ps : List Process) (i : String) (f : Process → Process) :
    updateProc ps i f = ps.map (fun p => if p.id = i then f p else p) := rfl

theorem updateProc_id_of_ne (i : String) (f : Process → Process) :
    ∀ (ps : List Process), (∀ p ∈ ps, p.id ≠ i) → updateProc ps i f = ps := by
  intro ps
  induction ps with
  | nil => intro h; rfl
  | cons p rest ih =>
    intro h
    unfold updateProc at ih ⊢
    simp only [List.map_cons]
    rw [if_neg (h p (List.mem_cons_self p rest))]
    rw [ih (fun q hq => h q (List.mem_cons_of_mem p hq))]

theorem waitQueue_cons (i : String) (Q : List String) (ps : List Process) :
    waitQueue (i :: Q) ps = waitQueue Q (updateProc ps i incWait) := rfl

theorem waitQueue_eq (Q : List String) (ps : List Process) :
    waitQueue Q ps =
      ps.map (fun p => { p with waitingTime := p.waitingTime + Q.count p.id }) := by
  induction Q generalizing ps with
  | nil =>
    have h : ∀ p ∈ ps,
        ({ p with waitingTime := p.waitingTime + List.count p.id [] } : Process) = id p := by
      intro p hp
      simp [List.count_nil]
    show ps = _
    rw [List.map_congr_left h, List.map_id]
  | cons i Q ih =>
    rw [waitQueue_cons, ih, updateProc_eq_map, List.map_map]
    apply List.map_congr_left
    intro p hp
    show (fun q => ({ q with waitingTime := q.waitingTime + Q.count q.id } : Process))
      (if p.id = i then incWait p else p) = _
    by_cases h : p.id = i
    · rw [if_pos h]
      have hc : List.count p.id (i :: Q) = List.count p.id Q + 1 := by
        rw [List.count_cons]
        rw [beq_iff_eq.mpr h.symm]
        simp
      have harith : p.waitingTime + 1 + List.count p.id Q
          = p.waitingTime + List.count p.id (i :: Q) := by omega
      exact congrArg (fun w => Process.mk p.id p.burstTime p.arrivalTime p.remainingTime w
        p.completionTime p.arrived p.finished) harith
    · rw [if_neg h]
      have hc : List.count p.id (i :: Q) = List.count p.id Q := by
        rw [List.count_cons]
        rw [beq_eq_false_iff_ne.mpr (fun hh => h hh.symm)]
        simp
      have harith : p.waitingTime + List.count p.id Q
          = p.waitingTime + List.count p.id (i :: Q) := by omega
      exact congrArg (fun w => Process.mk p.id p.burstTime p.arrivalTime p.remainingTime w
        p.completionTime p.arrived p.finished) harith

theorem findProc_map (g : Process → Process) (hg : ∀ p, (g p).id = p.id)
    (ps : List Process) (i : String) :
    findProc (ps.map g) i = Option.map g (findProc ps i) := by
  unfold findProc
  have hcomp : ((fun p : Process => p.id == i) ∘ g) = fun p : Process => p.id == i := by
    funext p
    simp [Function.comp, hg]
  rw [List.find?_map, hcomp]

theorem findProc_mem {ps : List Process} {i : String} {p : Process}
    (h : findProc ps i = some p) : p ∈ ps ∧ p.id = i := by
  refine ⟨List.mem_of_find?_eq_some h, ?_⟩
  have := List.find?_some h
  simpa using this

theorem findProc_of_mem {ps : List Process} {p : Process} {i : String}
    (hn : (ps.map (fun p => p.id)).Nodup) (hp : p ∈ ps) (hid : p.id = i) :
    findProc ps i = some p := by
  have h1 : (findProc ps i).isSome := by
    unfold findProc
    rw [List.find?_isSome]
    exact ⟨p, hp, by simp [hid]⟩
  obtain ⟨q, hq⟩ := Option.isSome_iff_exists.mp h1
  obtain ⟨hqm, hqi⟩ := findProc_mem hq
  rw [hq]
  exact congrArg some (eq_of_mem_id hn hqm hp (by rw [hqi, hid]))

theorem mem_newArrivals {now : Nat} {ps : List Process} {i : String} :
    i ∈ newArrivals now ps ↔ ∃ p, p ∈ ps ∧ arrivesAt now p = true ∧ p.id = i := by
  unfold newArrivals
  simp only [List.mem_map, List.mem_filter]
  constructor
  · rintro ⟨p, ⟨hp, ha⟩, hid⟩
    exact ⟨p, hp, ha, hid⟩
  · rintro ⟨p, hp, ha, hid⟩
    exact ⟨p, ⟨hp, ha⟩, hid⟩

/-! ### Phase shape lemmas -/

theorem arrivalsStep_processes (s : EngineState) :
    (arrivalsStep s).processes = s.processes.map (arriveOne s.currentTime) := rfl

theorem arrivalsStep_readyQueue (s : EngineState) :
    (arrivalsStep s).readyQueue = s.readyQueue ++ newArrivals s.currentTime s.processes := rfl

theorem arrivalsStep_currentCPU (s : EngineState) :
    (arrivalsStep s).currentCPU = s.currentCPU := rfl

theorem dispatchStep_some {s : EngineState} {c : CPUSlot} (qn : Nat)
    (hc : s.currentCPU = some c) : dispatchStep qn s = s := by
  unfold dispatchStep
  rw [hc]

theorem dispatchStep_none_nil {s : EngineState} (qn : Nat)
    (hc : s.currentCPU = none) (hq : s.readyQueue = []) : dispatchStep qn s = s := by
  unfold dispatchStep
  rw [hc, hq]

theorem dispatchStep_none_cons {s : EngineState} {i : String} {rest : List String} (qn : Nat)
    (hc : s.currentCPU = none) (hq : s.readyQueue = i :: rest) :
    dispatchStep qn s = { s with readyQueue := rest, currentCPU := some ⟨i, qn⟩ } := by
  unfold dispatchStep
  rw [hc, hq]

theorem dispatchStep_processes (qn : Nat) (s : EngineState) :
    (dispatchStep qn s).processes = s.processes := by
  unfold dispatchStep
  repeat' split
  all_goals rfl

theorem dispatchStep_none_inv {qn : Nat} {s : EngineState}
    (h : (dispatchStep qn s).currentCPU = none) :
    s.currentCPU = none ∧ s.readyQueue = [] ∧ dispatchStep qn s = s := by
  rcases hc : s.currentCPU with _ | c
  · rcases hq : s.readyQueue with _ | ⟨i, rest⟩
    · exact ⟨rfl, rfl, dispatchStep_none_nil qn hc hq⟩
    · rw [dispatchStep_none_cons qn hc hq] at h
      simp at h
  · rw [dispatchStep_some qn hc] at h
    rw [hc] at h
    simp at h

theorem execStep_some {s : EngineState} {c : CPUSlot} (hc : s.currentCPU = some c) :
    execStep s =
      { s with
        processes := updateProc (waitQueue s.readyQueue s.processes) c.proc decRem,
        currentCPU := some ⟨c.proc, c.qLeft - 1⟩,
        currentTime := s.currentTime + 1 } := by
  unfold execStep
  rw [hc]

theorem execStep_none {s : EngineState} (hc : s.currentCPU = none) :
    execStep s = { s with currentTime := s.currentTime + 1 } := by
  unfold execStep
  rw [hc]

theorem execStep_processes_some {s : EngineState} {c : CPUSlot} (hc : s.currentCPU = some c) :
    (execStep s).processes = s.processes.map (execOne s.readyQueue c.proc) := by
  rw [execStep_some hc]
  show updateProc (waitQueue s.readyQueue s.processes) c.proc decRem = _
  rw [waitQueue_eq, updateProc_eq_map, List.map_map]
  apply List.map_congr_left
  intro p hp
  show (if ({ p with waitingTime := p.waitingTime + (s.readyQueue.count p.id) } : Process).id
      = c.proc then _ else _) = _
  unfold execOne
  by_cases h : p.id = c.proc <;> simp [h]

theorem execStep_readyQueue (s : EngineState) : (execStep s).readyQueue = s.readyQueue := by
  unfold execStep
  repeat' split
  all_goals rfl

theorem execStep_currentCPU_some {s : EngineState} {c : CPUSlot} (hc : s.currentCPU = some c) :
    (execStep s).currentCPU = some ⟨c.proc, c.qLeft - 1⟩ := by
  rw [execStep_some hc]

theorem settleStep_none {s : EngineState} (hc : s.currentCPU = none) :
    settleStep s = s := by
  unfold settleStep
  rw [hc]

theorem settleStep_finish {s : EngineState} {c : CPUSlot} {p : Process}
    (hc : s.currentCPU = some c) (hf : findProc s.processes c.proc = some p)
    (h0 : p.remainingTime = 0) :
    settleStep s =
      { s with processes := updateProc s.processes c.proc (finishAt s.currentTime),
               currentCPU := none } := by
  unfold settleStep
  simp only [hc, hf]
  rw [if_pos h0]

theorem settleStep_expire {s : EngineState} {c : CPUSlot} {p : Process}
    (hc : s.currentCPU = some c) (hf : findProc s.processes c.proc = some p)
    (h0 : p.remainingTime ≠ 0) (hq : c.qLeft = 0) :
    settleStep s =
      { s with readyQueue := s.readyQueue ++ [c.proc], currentCPU := none } := by
  unfold settleStep
  simp only [hc, hf]
  rw [if_neg h0, if_pos hq]

theorem settleStep_stay {s : EngineState} {c : CPUSlot} {p : Process}
    (hc : s.currentCPU = some c) (hf : findProc s.processes c.proc = some p)
    (h0 : p.remainingTime ≠ 0) (hq : c.qLeft ≠ 0) :
    settleStep s = s := by
  unfold settleStep
  simp only [hc, hf]
  rw [if_neg h0, if_neg hq]

/-! ### Clock lemmas -/

theorem arrivalsStep_currentTime (s : EngineState) :
    (arrivalsStep s).currentTime = s.currentTime := rfl

theorem dispatchStep_currentTime (qn : Nat) (s : EngineState) :
    (dispatchStep qn s).currentTime = s.currentTime := by
  unfold dispatchStep
  rcases s.currentCPU with _ | c <;> rcases s.readyQueue with _ | ⟨i, rest⟩ <;> rfl

theorem execStep_currentTime (s : EngineState) :
    (execStep s).currentTime = s.currentTime + 1 := by
  unfold execStep
  rcases s.currentCPU with _ | c <;> rfl

theorem settleStep_currentTime (s : EngineState) :
    (settleStep s).currentTime = s.currentTime := by
  unfold settleStep
  repeat' split
  all_goals rfl

theorem tick_currentTime (qInput : Option Int) (s : EngineState) :
    (tick qInput s).currentTime = s.currentTime + 1 := by
  simp [tick, settleStep_currentTime, arrivalsStep_currentTime,
    execStep_currentTime, dispatchStep_currentTime]

/-! ### Helper lemmas for the invariant -/

theorem map_ids_of_pres {ps : List Process} {g : Process → Process}
    (hg : ∀ p, (g p).id = p.id) :
    (ps.map g).map (fun p => p.id) = ps.map (fun p => p.id) := by
  rw [List.map_map]
  apply List.map_congr_left
  intro p hp
  simp [Function.comp, hg]

theorem onCPU_congr {s s' : EngineState} (h : s'.currentCPU = s.currentCPU) (i : String) :
    onCPU s' i ↔ onCPU s i := by
  unfold onCPU
  rw [h]

theorem arriveOne_of_not_le {now : Nat} {p : Process} (h : ¬ p.arrivalTime ≤ now) :
    arriveOne now p = p := by
  unfold arriveOne arrivesAt
  simp [h]

theorem scanned_arrivalsStep (s : EngineState) : Scanned (arrivalsStep s) := by
  intro p' hp' ha'
  rw [arrivalsStep_processes] at hp'
  obtain ⟨p, hp, rfl⟩ := List.mem_map.mp hp'
  rw [arriveOne_arrived] at ha'
  simp only [Bool.or_eq_false_iff, decide_eq_false_iff_not] at ha'
  rw [arrivalsStep_currentTime]
  simp only [arriveOne_arrivalTime]
  omega

theorem invE_arrivalsStep {s : EngineState} (h : InvE s) : InvE (arrivalsStep s) := by
  constructor
  case ids_nodup =>
    rw [arrivalsStep_processes, map_ids_of_pres (fun p => arriveOne_id s.currentTime p)]
    exact h.ids_nodup
  case queue_nodup =>
    rw [arrivalsStep_readyQueue, List.nodup_append]
    refine ⟨h.queue_nodup, ?_, ?_⟩
    · unfold newArrivals
      have hsub := List.filter_sublist (p := arrivesAt s.currentTime) s.processes
      exact List.Nodup.sublist (List.Sublist.map (fun p => p.id) hsub) h.ids_nodup
    · rw [List.disjoint_left]
      intro i hiq hin
      obtain ⟨pn, hpn, han, hpid⟩ := mem_newArrivals.mp hin
      obtain ⟨pq, hpq, hpqid, hpqarr, _⟩ := h.queue_mem i hiq
      have heq : pq = pn := eq_of_mem_id h.ids_nodup hpq hpn (by rw [hpqid, hpid])
      have h2 := (arrivesAt_iff _ _).mp han
      rw [← heq] at h2
      rw [hpqarr] at h2
      exact absurd h2.1 (by simp)
  case queue_mem =>
    intro i hi
    rw [arrivalsStep_readyQueue] at hi
    rcases List.mem_append.mp hi with hold | hnew
    · obtain ⟨p, hp, hid, harr, hfin⟩ := h.queue_mem i hold
      refine ⟨arriveOne s.currentTime p, ?_, by simp [hid], ?_, by simp [hfin]⟩
      · rw [arrivalsStep_processes]
        exact List.mem_map_of_mem _ hp
      · rw [arriveOne_arrived, harr]
        simp
    · obtain ⟨p, hp, ha, hid⟩ := mem_newArrivals.mp hnew
      have hai := (arrivesAt_iff _ _).mp ha
      have hfin := (h.not_arrived p hp hai.1).2.2.1
      refine ⟨arriveOne s.currentTime p, ?_, by simp [hid], ?_, by simp [hfin]⟩
      · rw [arrivalsStep_processes]
        exact List.mem_map_of_mem _ hp
      · rw [arriveOne_arrived]
        simp [hai.2]
  case cpu_mem =>
    intro c hc
    rw [arrivalsStep_currentCPU] at hc
    obtain ⟨p, hp, hid, harr, hfin⟩ := h.cpu_mem c hc
    refine ⟨arriveOne s.currentTime p, ?_, by simp [hid], ?_, by simp [hfin]⟩
    · rw [arrivalsStep_processes]
      exact List.mem_map_of_mem _ hp
    · rw [arriveOne_arrived, harr]
      simp
  case cpu_queue =>
    intro c hc hmem
    rw [arrivalsStep_currentCPU] at hc
    rw [arrivalsStep_readyQueue] at hmem
    rcases List.mem_append.mp hmem with hold | hnew
    · exact h.cpu_queue c hc hold
    · obtain ⟨pn, hpn, han, hpid⟩ := mem_newArrivals.mp hnew
      obtain ⟨pc, hpc, hpcid, hpcarr, _⟩ := h.cpu_mem c hc
      have heq : pc = pn := eq_of_mem_id h.ids_nodup hpc hpn (by rw [hpcid, hpid])
      have h2 := (arrivesAt_iff _ _).mp han
      rw [← heq] at h2
      rw [hpcarr] at h2
      exact absurd h2.1 (by simp)
  case not_arrived =>
    intro p' hp' ha'
    rw [arrivalsStep_processes] at hp'
    obtain ⟨p, hp, rfl⟩ := List.mem_map.mp hp'
    rw [arriveOne_arrived] at ha'
    simp only [Bool.or_eq_false_iff, decide_eq_false_iff_not] at ha'
    obtain ⟨hpa, hpt⟩ := ha'
    obtain ⟨h1, h2, h3, h4, h5, h6, h7⟩ := h.not_arrived p hp hpa
    refine ⟨by simp [h1], by simp [h2], by simp [h3], by simp [h4], ?_, ?_, ?_⟩
    · rw [arrivalsStep_currentTime]
      simp only [arriveOne_arrivalTime]
      exact h5
    · intro hmem
      rw [arrivalsStep_readyQueue] at hmem
      simp only [arriveOne_id] at hmem
      rcases List.mem_append.mp hmem with hold2 | hnew
      · exact h6 hold2
      · obtain ⟨pn, hpn, han, hpid⟩ := mem_newArrivals.mp hnew
        have heq : p = pn := eq_of_mem_id h.ids_nodup hp hpn hpid.symm
        have hx := (arrivesAt_iff _ _).mp han
        rw [← heq] at hx
        exact hpt hx.2
    · simp only [arriveOne_id]
      intro hcpu
      exact h7 ((onCPU_congr (arrivalsStep_currentCPU s) p.id).mp hcpu)
  case active =>
    intro p' hp' ha' hf'
    rw [arrivalsStep_processes] at hp'
    obtain ⟨p, hp, rfl⟩ := List.mem_map.mp hp'
    simp only [arriveOne_finished] at hf'
    rw [arriveOne_arrived] at ha'
    by_cases hpa : p.arrived = true
    · have hone : arriveOne s.currentTime p = p := arriveOne_of_arrived _ _ hpa
      obtain ⟨hloc, hident, hrb, hct⟩ := h.active p hp hpa hf'
      rw [hone]
      refine ⟨?_, ?_, hrb, hct⟩
      · rcases hloc with hq | hcpu
        · exact Or.inl (by rw [arrivalsStep_readyQueue]; exact List.mem_append_left _ hq)
        · exact Or.inr ((onCPU_congr (arrivalsStep_currentCPU s) p.id).mpr hcpu)
      · rw [arrivalsStep_currentTime]
        exact hident
    · rw [Bool.not_eq_true] at hpa
      rw [hpa] at ha'
      simp only [Bool.false_or, decide_eq_true_eq] at ha'
      obtain ⟨h1, h2, h3, h4, h5, h6, h7⟩ := h.not_arrived p hp hpa
      refine ⟨?_, ?_, ?_, by simp [h4]⟩
      · left
        rw [arrivalsStep_readyQueue]
        apply List.mem_append_right
        simp only [arriveOne_id]
        exact mem_newArrivals.mpr ⟨p, hp, (arrivesAt_iff _ _).mpr ⟨hpa, ha'⟩, rfl⟩
      · rw [arrivalsStep_currentTime]
        simp only [arriveOne_arrivalTime, arriveOne_waitingTime, arriveOne_burstTime,
          arriveOne_remainingTime]
        omega
      · simp only [arriveOne_remainingTime, arriveOne_burstTime]
        rw [h1]
  case done =>
    intro p' hp' hf'
    rw [arrivalsStep_processes] at hp'
    obtain ⟨p, hp, rfl⟩ := List.mem_map.mp hp'
    simp only [arriveOne_finished] at hf'
    obtain ⟨ha, hrem, hq, hcpu, ct, hct, hle, hident⟩ := h.done p hp hf'
    have hone : arriveOne s.currentTime p = p := arriveOne_of_arrived _ _ ha
    rw [hone]
    refine ⟨ha, hrem, ?_, ?_, ct, hct, ?_, hident⟩
    · intro hmem
      rw [arrivalsStep_readyQueue] at hmem
      rcases List.mem_append.mp hmem with h1 | h2
      · exact hq h1
      · obtain ⟨pn, hpn, han, hpid⟩ := mem_newArrivals.mp h2
        have heq : p = pn := eq_of_mem_id h.ids_nodup hp hpn hpid.symm
        have hx := (arrivesAt_iff _ _).mp han
        rw [← heq] at hx
        rw [ha] at hx
        exact absurd hx.1 (by simp)
    · intro hc
      exact hcpu ((onCPU_congr (arrivalsStep_currentCPU s) p.id).mp hc)
    · rw [arrivalsStep_currentTime]
      exact hle
  case bursts_pos =>
    intro p' hp'
    rw [arrivalsStep_processes] at hp'
    obtain ⟨p, hp, rfl⟩ := List.mem_map.mp hp'
    simp only [arriveOne_burstTime]
    exact h.bursts_pos p hp

theorem remPos_arrivalsStep {s : EngineState} (h : RemPos s) : RemPos (arrivalsStep s) := by
  intro p' hp' hf'
  rw [arrivalsStep_processes] at hp'
  obtain ⟨p, hp, rfl⟩ := List.mem_map.mp hp'
  simp only [arriveOne_finished] at hf'
  simp only [arriveOne_remainingTime]
  exact h p hp hf'

theorem remPosExc_arrivalsStep {s : EngineState} (h : RemPosExc s) :
    RemPosExc (arrivalsStep s) := by
  intro p' hp' hf'
  rw [arrivalsStep_processes] at hp'
  obtain ⟨p, hp, rfl⟩ := List.mem_map.mp hp'
  simp only [arriveOne_finished] at hf'
  simp only [arriveOne_remainingTime, arriveOne_id]
  rcases h p hp hf' with hcpu | hrem
  · exact Or.inl ((onCPU_congr (arrivalsStep_currentCPU s) p.id).mpr hcpu)
  · exact Or.inr hrem

theorem scanned_dispatchStep {s : EngineState} (qn : Nat) (h : Scanned s) :
    Scanned (dispatchStep qn s) := by
  intro p hp ha
  rw [dispatchStep_processes] at hp
  rw [dispatchStep_currentTime]
  exact h p hp ha

theorem remPos_dispatchStep {s : EngineState} (qn : Nat) (h : RemPos s) :
    RemPos (dispatchStep qn s) := by
  intro p hp hf
  rw [dispatchStep_processes] at hp
  exact h p hp hf

theorem invE_dispatchStep {s : EngineState} (qn : Nat) (h : InvE s) :
    InvE (dispatchStep qn s) := by
  rcases hc : s.currentCPU with _ | c
  case some => rw [dispatchStep_some qn hc]; exact h
  case none =>
  rcases hq : s.readyQueue with _ | ⟨i, rest⟩
  case nil => rw [dispatchStep_none_nil qn hc hq]; exact h
  case cons =>
  rw [dispatchStep_none_cons qn hc hq]
  have hihd : i ∈ s.readyQueue := by rw [hq]; exact List.mem_cons_self i rest
  constructor
  case ids_nodup => exact h.ids_nodup
  case queue_nodup =>
    have hnd := h.queue_nodup
    rw [hq] at hnd
    exact (List.nodup_cons.mp hnd).2
  case queue_mem =>
    intro j hj
    exact h.queue_mem j (by rw [hq]; exact List.mem_cons_of_mem i hj)
  case cpu_mem =>
    intro c' hc'
    have hcc : (⟨i, qn⟩ : CPUSlot) = c' := Option.some.inj hc'
    obtain ⟨p, hp, hid, harr, hfin⟩ := h.queue_mem i hihd
    exact ⟨p, hp, by rw [← hcc]; exact hid, harr, hfin⟩
  case cpu_queue =>
    intro c' hc' hmem
    have hcc : (⟨i, qn⟩ : CPUSlot) = c' := Option.some.inj hc'
    have hnd := h.queue_nodup
    rw [hq] at hnd
    rw [← hcc] at hmem
    exact (List.nodup_cons.mp hnd).1 hmem
  case not_arrived =>
    intro p hp ha
    obtain ⟨h1, h2, h3, h4, h5, h6, h7⟩ := h.not_arrived p hp ha
    refine ⟨h1, h2, h3, h4, h5, ?_, ?_⟩
    · intro hmem
      exact h6 (by rw [hq]; exact List.mem_cons_of_mem i hmem)
    · rintro ⟨c', hc', hproc⟩
      have hcc : (⟨i, qn⟩ : CPUSlot) = c' := Option.some.inj hc'
      obtain ⟨pq, hpq, hpqid, hpqarr, _⟩ := h.queue_mem i hihd
      have hpi : p.id = i := by rw [← hproc, ← hcc]
      have heq : p = pq := eq_of_mem_id h.ids_nodup hp hpq (by rw [hpi, hpqid])
      rw [heq] at ha
      exact absurd ha (by simp [hpqarr])
  case active =>
    intro p hp ha hf
    obtain ⟨hloc, hident, hrb, hct⟩ := h.active p hp ha hf
    refine ⟨?_, hident, hrb, hct⟩
    rcases hloc with hqm | hcpu
    · rw [hq] at hqm
      rcases List.mem_cons.mp hqm with hpi | hrest
      · exact Or.inr ⟨⟨i, qn⟩, rfl, hpi.symm⟩
      · exact Or.inl hrest
    · obtain ⟨c', hc', _⟩ := hcpu
      rw [hc] at hc'
      exact absurd hc' (by simp)
  case done =>
    intro p hp hf
    obtain ⟨ha, hrem, hqmem, hcpu, ct, hct, hle, hident⟩ := h.done p hp hf
    refine ⟨ha, hrem, ?_, ?_, ct, hct, hle, hident⟩
    · intro hmem
      exact hqmem (by rw [hq]; exact List.mem_cons_of_mem i hmem)
    · rintro ⟨c', hc', hproc⟩
      have hcc : (⟨i, qn⟩ : CPUSlot) = c' := Option.some.inj hc'
      obtain ⟨pq, hpq, hpqid, _, hpqfin⟩ := h.queue_mem i hihd
      have hpi : p.id = i := by rw [← hproc, ← hcc]
      have heq : p = pq := eq_of_mem_id h.ids_nodup hp hpq (by rw [hpi, hpqid])
      rw [heq] at hf
      exact absurd hf (by simp [hpqfin])
  case bursts_pos =>
    intro p hp
    exact h.bursts_pos p hp

theorem invE_execStep_some {s : EngineState} {c : CPUSlot}
    (h : InvE s) (hrp : RemPos s) (hsc : Scanned s) (hc : s.currentCPU = some c) :
    InvE (execStep s) := by
  obtain ⟨r, hrmem, hrid, hrarr, hrfin⟩ := h.cpu_mem c hc
  constructor
  case ids_nodup =>
    rw [execStep_processes_some hc, map_ids_of_pres (fun p => execOne_id _ _ p)]
    exact h.ids_nodup
  case queue_nodup =>
    rw [execStep_readyQueue]
    exact h.queue_nodup
  case queue_mem =>
    intro j hj
    rw [execStep_readyQueue] at hj
    obtain ⟨p, hp, hid, harr, hfin⟩ := h.queue_mem j hj
    refine ⟨execOne s.readyQueue c.proc p, ?_, by simp [hid], by simp [harr], by simp [hfin]⟩
    rw [execStep_processes_some hc]
    exact List.mem_map_of_mem _ hp
  case cpu_mem =>
    intro c' hc'
    rw [execStep_currentCPU_some hc] at hc'
    have hcc : (⟨c.proc, c.qLeft - 1⟩ : CPUSlot) = c' := Option.some.inj hc'
    refine ⟨execOne s.readyQueue c.proc r, ?_, by rw [← hcc]; simp [hrid],
      by simp [hrarr], by simp [hrfin]⟩
    rw [execStep_processes_some hc]
    exact List.mem_map_of_mem _ hrmem
  case cpu_queue =>
    intro c' hc' hmem
    rw [execStep_currentCPU_some hc] at hc'
    have hcc : (⟨c.proc, c.qLeft - 1⟩ : CPUSlot) = c' := Option.some.inj hc'
    rw [execStep_readyQueue] at hmem
    rw [← hcc] at hmem
    exact h.cpu_queue c hc hmem
  case not_arrived =>
    intro p' hp' ha'
    rw [execStep_processes_some hc] at hp'
    obtain ⟨p, hp, rfl⟩ := List.mem_map.mp hp'
    simp only [execOne_arrived] at ha'
    obtain ⟨h1, h2, h3, h4, h5, h6, h7⟩ := h.not_arrived p hp ha'
    have hpne : p.id ≠ c.proc := by
      intro hpe
      have heq : p = r := eq_of_mem_id h.ids_nodup hp hrmem (by rw [hpe, hrid])
      rw [heq] at ha'
      exact absurd ha' (by simp [hrarr])
    have hcount : List.count p.id s.readyQueue = 0 := List.count_eq_zero.mpr h6
    refine ⟨?_, ?_, by simp [h3], by simp [h4], ?_, ?_, ?_⟩
    · simp only [execOne_remainingTime, execOne_burstTime]
      rw [if_neg hpne]
      exact h1
    · simp only [execOne_waitingTime]
      rw [h2, hcount]
    · rw [execStep_currentTime]
      simp only [execOne_arrivalTime]
      have := hsc p hp ha'
      omega
    · rw [execStep_readyQueue]
      simp only [execOne_id]
      exact h6
    · simp only [execOne_id]
      rintro ⟨c', hc', hproc⟩
      rw [execStep_currentCPU_some hc] at hc'
      have hcc : (⟨c.proc, c.qLeft - 1⟩ : CPUSlot) = c' := Option.some.inj hc'
      rw [← hcc] at hproc
      exact hpne hproc.symm
  case active =>
    intro p' hp' ha' hf'
    rw [execStep_processes_some hc] at hp'
    obtain ⟨p, hp, rfl⟩ := List.mem_map.mp hp'
    simp only [execOne_arrived] at ha'
    simp only [execOne_finished] at hf'
    obtain ⟨hloc, hident, hrb, hct⟩ := h.active p hp ha' hf'
    by_cases hpc : p.id = c.proc
    · have hremp : 1 ≤ p.remainingTime := hrp p hp hf'
      have hcount : List.count p.id s.readyQueue = 0 :=
        List.count_eq_zero.mpr (by rw [hpc]; exact h.cpu_queue c hc)
      refine ⟨?_, ?_, ?_, by simp [hct]⟩
      · exact Or.inr ⟨⟨c.proc, c.qLeft - 1⟩, execStep_currentCPU_some hc, by simp [hpc]⟩
      · rw [execStep_currentTime]
        simp only [execOne_arrivalTime, execOne_waitingTime, execOne_burstTime,
          execOne_remainingTime]
        rw [if_pos hpc, hcount]
        omega
      · simp only [execOne_remainingTime, execOne_burstTime]
        rw [if_pos hpc]
        omega
    · have hqmem : p.id ∈ s.readyQueue := by
        rcases hloc with hqm | hcpu
        · exact hqm
        · obtain ⟨c', hc', hproc⟩ := hcpu
          rw [hc] at hc'
          have hcc := Option.some.inj hc'
          rw [← hcc] at hproc
          exact absurd hproc.symm hpc
      have hcount : List.count p.id s.readyQueue = 1 :=
        List.count_eq_one_of_mem h.queue_nodup hqmem
      refine ⟨?_, ?_, ?_, by simp [hct]⟩
      · left
        rw [execStep_readyQueue]
        simp only [execOne_id]
        exact hqmem
      · rw [execStep_currentTime]
        simp only [execOne_arrivalTime, execOne_waitingTime, execOne_burstTime,
          execOne_remainingTime]
        rw [if_neg hpc, hcount]
        omega
      · simp only [execOne_remainingTime, execOne_burstTime]
        rw [if_neg hpc]
        exact hrb
  case done =>
    intro p' hp' hf'
    rw [execStep_processes_some hc] at hp'
    obtain ⟨p, hp, rfl⟩ := List.mem_map.mp hp'
    simp only [execOne_finished] at hf'
    obtain ⟨ha, hrem, hqmem, hcpu, ct, hct, hle, hident⟩ := h.done p hp hf'
    have hpne : p.id ≠ c.proc := by
      intro hpe
      have heq : p = r := eq_of_mem_id h.ids_nodup hp hrmem (by rw [hpe, hrid])
      rw [heq] at hf'
      exact absurd hf' (by simp [hrfin])
    have hcount : List.count p.id s.readyQueue = 0 := List.count_eq_zero.mpr hqmem
    refine ⟨by simp [ha], ?_, ?_, ?_, ct, by simp [hct], ?_, ?_⟩
    · simp only [execOne_remainingTime]
      rw [if_neg hpne]
      exact hrem
    · rw [execStep_readyQueue]
      simp only [execOne_id]
      exact hqmem
    · simp only [execOne_id]
      rintro ⟨c', hc', hproc⟩
      rw [execStep_currentCPU_some hc] at hc'
      have hcc : (⟨c.proc, c.qLeft - 1⟩ : CPUSlot) = c' := Option.some.inj hc'
      rw [← hcc] at hproc
      exact hpne hproc.symm
    · rw [execStep_currentTime]
      omega
    · simp only [execOne_arrivalTime, execOne_burstTime, execOne_waitingTime]
      rw [hcount]
      omega
  case bursts_pos =>
    intro p' hp'
    rw [execStep_processes_some hc] at hp'
    obtain ⟨p, hp, rfl⟩ := List.mem_map.mp hp'
    simp only [execOne_burstTime]
    exact h.bursts_pos p hp

theorem remPosExc_execStep_some {s : EngineState} {c : CPUSlot}
    (hrp : RemPos s) (hc : s.currentCPU = some c) : RemPosExc (execStep s) := by
  intro p' hp' hf'
  rw [execStep_processes_some hc] at hp'
  obtain ⟨p, hp, rfl⟩ := List.mem_map.mp hp'
  simp only [execOne_finished] at hf'
  by_cases hpc : p.id = c.proc
  · exact Or.inl ⟨⟨c.proc, c.qLeft - 1⟩, execStep_currentCPU_some hc, by simp [hpc]⟩
  · right
    simp only [execOne_remainingTime]
    rw [if_neg hpc]
    exact hrp p hp hf'

theorem invE_execStep_none {s : EngineState}
    (h : InvE s) (hsc : Scanned s) (hc : s.currentCPU = none) (hq : s.readyQueue = []) :
    InvE (execStep s) := by
  rw [execStep_none hc]
  constructor
  case ids_nodup => exact h.ids_nodup
  case queue_nodup => exact h.queue_nodup
  case queue_mem => exact fun i hi => h.queue_mem i hi
  case cpu_mem =>
    intro c' hc'
    have hcc : s.currentCPU = some c' := hc'
    rw [hc] at hcc
    exact absurd hcc (by simp)
  case cpu_queue =>
    intro c' hc' hmem
    have hcc : s.currentCPU = some c' := hc'
    rw [hc] at hcc
    exact absurd hcc (by simp)
  case not_arrived =>
    intro p hp ha
    obtain ⟨h1, h2, h3, h4, h5, h6, h7⟩ := h.not_arrived p hp ha
    refine ⟨h1, h2, h3, h4, ?_, h6, ?_⟩
    · show s.currentTime + 1 ≤ p.arrivalTime
      have := hsc p hp ha
      omega
    · exact fun hcpu => h7 ((onCPU_congr rfl p.id).mp hcpu)
  case active =>
    intro p hp ha hf
    obtain ⟨hloc, _, _, _⟩ := h.active p hp ha hf
    rcases hloc with hqm | hcpu
    · rw [hq] at hqm
      exact absurd hqm (List.not_mem_nil _)
    · obtain ⟨c', hc', _⟩ := hcpu
      rw [hc] at hc'
      exact absurd hc' (by simp)
  case done =>
    intro p hp hf
    obtain ⟨ha, hrem, hqmem, hcpu, ct, hct, hle, hident⟩ := h.done p hp hf
    refine ⟨ha, hrem, hqmem, ?_, ct, hct, ?_, hident⟩
    · exact fun hc2 => hcpu ((onCPU_congr rfl p.id).mp hc2)
    · show ct ≤ s.currentTime + 1
      omega
  case bursts_pos => exact fun p hp => h.bursts_pos p hp

theorem remPos_execStep_none {s : EngineState} (h : RemPos s) (hc : s.currentCPU = none) :
    RemPos (execStep s) := by
  rw [execStep_none hc]
  exact fun p hp hf => h p hp hf

theorem inv_settleStep {s : EngineState} (h : InvE s) (hre : RemPosExc s) :
    Inv (settleStep s) := by
  rcases hc : s.currentCPU with _ | c
  case none =>
    rw [settleStep_none hc]
    refine ⟨h, ?_⟩
    intro p hp hf
    rcases hre p hp hf with hcpu | hrem
    · obtain ⟨c', hc', _⟩ := hcpu
      rw [hc] at hc'
      exact absurd hc' (by simp)
    · exact hrem
  case some =>
  obtain ⟨r, hrmem, hrid, hrarr, hrfin⟩ := h.cpu_mem c hc
  have hfp : findProc s.processes c.proc = some r := findProc_of_mem h.ids_nodup hrmem hrid
  by_cases h0 : r.remainingTime = 0
  · -- completion branch
    rw [settleStep_finish hc hfp h0]
    rw [updateProc_eq_map]
    constructor
    constructor
    · -- ids_nodup
      rw [map_ids_of_pres (fun p => by by_cases hh : p.id = c.proc <;> simp [hh])]
      exact h.ids_nodup
    · exact h.queue_nodup
    · -- queue_mem
      intro i hi
      obtain ⟨p, hp, hid, harr, hfin⟩ := h.queue_mem i hi
      have hne : p.id ≠ c.proc := by
        rw [hid]
        intro hh
        exact h.cpu_queue c hc (hh ▸ hi)
      refine ⟨p, ?_, hid, harr, hfin⟩
      have hmm := List.mem_map_of_mem
        (fun p => if p.id = c.proc then finishAt s.currentTime p else p) hp
      simp only [if_neg hne] at hmm
      exact hmm
    · -- cpu_mem
      intro c' hc'
      exact Option.noConfusion (show (none : Option CPUSlot) = some c' from hc')
    · -- cpu_queue
      intro c' hc'
      exact Option.noConfusion (show (none : Option CPUSlot) = some c' from hc')
    · -- not_arrived
      intro p' hp' ha'
      obtain ⟨p, hp, rfl⟩ := List.mem_map.mp hp'
      have hpa : p.arrived = false := by
        by_cases hh : p.id = c.proc
        · rw [if_pos hh] at ha'
          simpa using ha'
        · rw [if_neg hh] at ha'
          exact ha'
      have hpne : p.id ≠ c.proc := by
        intro hpe
        have heq : p = r := eq_of_mem_id h.ids_nodup hp hrmem (by rw [hpe, hrid])
        rw [heq] at hpa
        exact absurd hpa (by simp [hrarr])
      rw [if_neg hpne]
      obtain ⟨h1, h2, h3, h4, h5, h6, h7⟩ := h.not_arrived p hp hpa
      refine ⟨h1, h2, h3, h4, h5, h6, ?_⟩
      rintro ⟨c', hc', _⟩
      exact Option.noConfusion (show (none : Option CPUSlot) = some c' from hc')
    · -- active
      intro p' hp' ha' hf'
      obtain ⟨p, hp, rfl⟩ := List.mem_map.mp hp'
      by_cases hpc : p.id = c.proc
      · rw [if_pos hpc] at hf'
        exact absurd hf' (by simp)
      · rw [if_neg hpc] at ha' hf' ⊢
        obtain ⟨hloc, hident, hrb, hct⟩ := h.active p hp ha' hf'
        refine ⟨?_, hident, hrb, hct⟩
        rcases hloc with hqm | hcpu
        · exact Or.inl hqm
        · obtain ⟨c', hc', hproc⟩ := hcpu
          rw [hc] at hc'
          have hcc := Option.some.inj hc'
          rw [← hcc] at hproc
          exact absurd hproc.symm hpc
    · -- done
      intro p' hp' hf'
      obtain ⟨p, hp, rfl⟩ := List.mem_map.mp hp'
      by_cases hpc : p.id = c.proc
      · have heq : p = r := eq_of_mem_id h.ids_nodup hp hrmem (by rw [hpc, hrid])
        obtain ⟨_, hident, hrb, _⟩ := h.active r hrmem hrarr hrfin
        rw [if_pos hpc]
        refine ⟨by simp [heq, hrarr], by simp [heq, h0], ?_, ?_,
          s.currentTime, by simp, le_refl _, ?_⟩
        · simp only [finishAt_id]
          rw [hpc]
          exact h.cpu_queue c hc
        · rintro ⟨c', hc', _⟩
          exact Option.noConfusion (show (none : Option CPUSlot) = some c' from hc')
        · simp only [finishAt_arrivalTime, finishAt_burstTime, finishAt_waitingTime]
          rw [heq]
          omega
      · rw [if_neg hpc] at hf' ⊢
        obtain ⟨ha, hrem, hqmem, hcpu, ct, hct, hle, hident⟩ := h.done p hp hf'
        refine ⟨ha, hrem, hqmem, ?_, ct, hct, hle, hident⟩
        rintro ⟨c', hc', _⟩
        exact Option.noConfusion (show (none : Option CPUSlot) = some c' from hc')
    · -- bursts_pos
      intro p' hp'
      obtain ⟨p, hp, rfl⟩ := List.mem_map.mp hp'
      by_cases hpc : p.id = c.proc
      · rw [if_pos hpc]
        simpa using h.bursts_pos p hp
      · rw [if_neg hpc]
        exact h.bursts_pos p hp
    -- RemPos
    intro p' hp' hf'
    obtain ⟨p, hp, rfl⟩ := List.mem_map.mp hp'
    by_cases hpc : p.id = c.proc
    · rw [if_pos hpc] at hf'
      exact absurd hf' (by simp)
    · rw [if_neg hpc] at hf' ⊢
      rcases hre p hp hf' with hcpu | hrem
      · obtain ⟨c', hc', hproc⟩ := hcpu
        rw [hc] at hc'
        have hcc := Option.some.inj hc'
        rw [← hcc] at hproc
        exact absurd hproc.symm hpc
      · exact hrem
  · by_cases hql : c.qLeft = 0
    · -- quantum expiry branch
      rw [settleStep_expire hc hfp h0 hql]
      constructor
      constructor
      · exact h.ids_nodup
      · -- queue_nodup
        rw [List.nodup_append]
        refine ⟨h.queue_nodup, List.nodup_singleton _, ?_⟩
        rw [List.disjoint_left]
        intro a ha hb
        rw [List.mem_singleton.mp hb] at ha
        exact h.cpu_queue c hc ha
      · -- queue_mem
        intro i hi
        rcases List.mem_append.mp hi with hold | hnew
        · exact h.queue_mem i hold
        · rw [List.mem_singleton.mp hnew]
          exact ⟨r, hrmem, hrid, hrarr, hrfin⟩
      · -- cpu_mem
        intro c' hc'
        exact Option.noConfusion (show (none : Option CPUSlot) = some c' from hc')
      · -- cpu_queue
        intro c' hc'
        exact Option.noConfusion (show (none : Option CPUSlot) = some c' from hc')
      · -- not_arrived
        intro p hp ha
        obtain ⟨h1, h2, h3, h4, h5, h6, h7⟩ := h.not_arrived p hp ha
        refine ⟨h1, h2, h3, h4, h5, ?_, ?_⟩
        · intro hmem
          rcases List.mem_append.mp hmem with hold | hnew
          · exact h6 hold
          · have hpe := List.mem_singleton.mp hnew
            have heq : p = r := eq_of_mem_id h.ids_nodup hp hrmem (by rw [hpe, hrid])
            rw [heq] at ha
            exact absurd ha (by simp [hrarr])
        · rintro ⟨c', hc', _⟩
          exact Option.noConfusion (show (none : Option CPUSlot) = some c' from hc')
      · -- active
        intro p hp ha hf
        obtain ⟨hloc, hident, hrb, hct⟩ := h.active p hp ha hf
        refine ⟨?_, hident, hrb, hct⟩
        rcases hloc with hqm | hcpu
        · exact Or.inl (List.mem_append_left _ hqm)
        · obtain ⟨c', hc', hproc⟩ := hcpu
          rw [hc] at hc'
          have hcc := Option.some.inj hc'
          rw [← hcc] at hproc
          left
          apply List.mem_append_right
          rw [← hproc]
          exact List.mem_singleton_self _
      · -- done
        intro p hp hf
        obtain ⟨ha, hrem, hqmem, hcpu, ct, hct, hle, hident⟩ := h.done p hp hf
        refine ⟨ha, hrem, ?_, ?_, ct, hct, hle, hident⟩
        · intro hmem
          rcases List.mem_append.mp hmem with hold | hnew
          · exact hqmem hold
          · have hpe := List.mem_singleton.mp hnew
            have heq : p = r := eq_of_mem_id h.ids_nodup hp hrmem (by rw [hpe, hrid])
            rw [heq] at hf
            exact absurd hf (by simp [hrfin])
        · rintro ⟨c', hc', _⟩
          exact Option.noConfusion (show (none : Option CPUSlot) = some c' from hc')
      · exact fun p hp => h.bursts_pos p hp
      -- RemPos
      intro p hp hf
      rcases hre p hp hf with hcpu | hrem
      · obtain ⟨c', hc', hproc⟩ := hcpu
        rw [hc] at hc'
        have hcc := Option.some.inj hc'
        rw [← hcc] at hproc
        have heq : p = r := eq_of_mem_id h.ids_nodup hp hrmem (by rw [← hproc, hrid])
        rw [heq]
        omega
      · exact hrem
    · -- stay branch
      rw [settleStep_stay hc hfp h0 hql]
      refine ⟨h, ?_⟩
      intro p hp hf
      rcases hre p hp hf with hcpu | hrem
      · obtain ⟨c', hc', hproc⟩ := hcpu
        rw [hc] at hc'
        have hcc := Option.some.inj hc'
        rw [← hcc] at hproc
        have heq : p = r := eq_of_mem_id h.ids_nodup hp hrmem (by rw [← hproc, hrid])
        rw [heq]
        omega
      · exact hrem

theorem remPosExc_of_remPos {s : EngineState} (h : RemPos s) : RemPosExc s :=
  fun p hp hf => Or.inr (h p hp hf)

theorem inv_tick (qInput : Option Int) {s : EngineState} (h : Inv s) : Inv (tick qInput s) := by
  obtain ⟨hE, hR⟩ := h
  have h1E := invE_arrivalsStep hE
  have h1R := remPos_arrivalsStep hR
  have h1S := scanned_arrivalsStep s
  have h2E := invE_dispatchStep (getQuantum qInput).toNat h1E
  have h2R := remPos_dispatchStep (getQuantum qInput).toNat h1R
  have h2S := scanned_dispatchStep (getQuantum qInput).toNat h1S
  rcases hc : (dispatchStep (getQuantum qInput).toNat (arrivalsStep s)).currentCPU with _ | c
  · obtain ⟨hc0, hq0, heq⟩ := dispatchStep_none_inv hc
    have h3E := invE_execStep_none h1E h1S hc0 hq0
    have h3R := remPos_execStep_none h1R hc0
    have h4E := invE_arrivalsStep h3E
    have h4X := remPosExc_arrivalsStep (remPosExc_of_remPos h3R)
    have hres := inv_settleStep h4E h4X
    show Inv (settleStep (arrivalsStep (execStep
      (dispatchStep (getQuantum qInput).toNat (arrivalsStep s)))))
    rw [heq]
    exact hres
  · have h3E := invE_execStep_some h2E h2R h2S hc
    have h3X := remPosExc_execStep_some h2R hc
    have h4E := invE_arrivalsStep h3E
    have h4X := remPosExc_arrivalsStep h3X
    exact inv_settleStep h4E h4X

theorem inv_deepReset {defs : List ProcDef}
    (hn : (defs.map (fun d => d.id)).Nodup) (hb : ∀ d ∈ defs, 1 ≤ d.burstTime) :
    Inv (deepReset defs) := by
  constructor
  · constructor
    case ids_nodup =>
      show ((defs.map initProc).map (fun p => p.id)).Nodup
      rw [List.map_map]
      have hcong : ∀ d ∈ defs, ((fun p : Process => p.id) ∘ initProc) d = d.id :=
        fun d _ => rfl
      rw [List.map_congr_left hcong]
      exact hn
    case queue_nodup => exact List.nodup_nil
    case queue_mem => exact fun i hi => absurd hi (List.not_mem_nil _)
    case cpu_mem =>
      exact fun c hc => Option.noConfusion (show (none : Option CPUSlot) = some c from hc)
    case cpu_queue =>
      exact fun c hc => Option.noConfusion (show (none : Option CPUSlot) = some c from hc)
    case not_arrived =>
      intro p hp _
      obtain ⟨d, hd, rfl⟩ := List.mem_map.mp hp
      refine ⟨rfl, rfl, rfl, rfl, Nat.zero_le _, List.not_mem_nil _, ?_⟩
      rintro ⟨c, hc, _⟩
      exact Option.noConfusion (show (none : Option CPUSlot) = some c from hc)
    case active =>
      intro p hp ha _
      obtain ⟨d, hd, rfl⟩ := List.mem_map.mp hp
      exact absurd ha (by simp [initProc])
    case done =>
      intro p hp hf
      obtain ⟨d, hd, rfl⟩ := List.mem_map.mp hp
      exact absurd hf (by simp [initProc])
    case bursts_pos =>
      intro p hp
      obtain ⟨d, hd, rfl⟩ := List.mem_map.mp hp
      exact hb d hd
  · intro p hp _
    obtain ⟨d, hd, rfl⟩ := List.mem_map.mp hp
    show 1 ≤ d.burstTime
    exact hb d hd

theorem inv_runTicks (qInput : Option Int) :
    ∀ (n : Nat) {s : EngineState}, Inv s → Inv (runTicks qInput s n) := by
  intro n
  induction n with
  | zero => exact fun h => h
  | succ n ih => exact fun h => ih (inv_tick qInput h)

/-- C8: every `tick()` call advances `currentTime` by exactly 1 — both when
the CPU slot is occupied and on an idle tick — and no sub-step of `tick`
decreases the clock or advances it by more than 1. -/
theorem tick_clock_plus_one (qInput : Option Int) (s : EngineState) :
    (tick qInput s).currentTime = s.currentTime + 1 :=
  tick_currentTime qInput s

theorem arrivalsStep_all_arrived {s : EngineState}
    (h : ∀ p ∈ s.processes, p.arrived = true) : arrivalsStep s = s := by
  unfold arrivalsStep newArrivals
  have hfil : s.processes.filter (arrivesAt s.currentTime) = [] := by
    rw [List.filter_eq_nil_iff]
    intro p hp
    unfold arrivesAt
    simp [h p hp]
  have hmap : s.processes.map (arriveOne s.currentTime) = s.processes := by
    have hcong : ∀ p ∈ s.processes, arriveOne s.currentTime p = id p := by
      intro p hp
      show arriveOne s.currentTime p = p
      exact arriveOne_of_arrived _ _ (h p hp)
    rw [List.map_congr_left hcong, List.map_id]
  rw [hfil, hmap]
  simp

theorem tick_noop_after_completion {s : EngineState} (qInput : Option Int) (hE : InvE s)
    (hall : ∀ p ∈ s.processes, p.finished = true) :
    tick qInput s = { s with currentTime := s.currentTime + 1 } := by
  have harr : ∀ p ∈ s.processes, p.arrived = true := fun p hp => (hE.done p hp (hall p hp)).1
  have hqe : s.readyQueue = [] := by
    cases hq : s.readyQueue with
    | nil => rfl
    | cons i rest =>
      obtain ⟨p, hp, _, _, hfin⟩ := hE.queue_mem i (by rw [hq]; exact List.mem_cons_self i rest)
      simp [hall p hp] at hfin
  have hce : s.currentCPU = none := by
    cases hc : s.currentCPU with
    | none => rfl
    | some c =>
      obtain ⟨p, hp, _, _, hfin⟩ := hE.cpu_mem c hc
      simp [hall p hp] at hfin
  have h1 : arrivalsStep s = s := arrivalsStep_all_arrived harr
  show settleStep (arrivalsStep (execStep
    (dispatchStep (getQuantum qInput).toNat (arrivalsStep s)))) = _
  rw [h1, dispatchStep_none_nil _ hce hqe, execStep_none hce]
  have h2 : arrivalsStep { s with currentTime := s.currentTime + 1 } =
      { s with currentTime := s.currentTime + 1 } :=
    arrivalsStep_all_arrived (fun p hp => harr p hp)
  rw [h2]
  exact settleStep_none hce

/-- C1: for every configuration with distinct ids and positive burst times and
every state reached from reset by any number of ticks, every finished process
satisfies the waiting identity exactly:
waitingTime = (completionTime - arrivalTime) - burstTime. -/
theorem waiting_time_identity (defs : List ProcDef) (qInput : Option Int)
    (hn : (defs.map (fun d => d.id)).Nodup) (hb : ∀ d ∈ defs, 1 ≤ d.burstTime)
    (n : Nat) :
    ∀ p ∈ (runTicks qInput (deepReset defs) n).processes, p.finished = true →
      ∃ ct, p.completionTime = some ct ∧
        p.waitingTime = (ct - p.arrivalTime) - p.burstTime := by
  intro p hp hf
  obtain ⟨hE, _⟩ := inv_runTicks qInput n (inv_deepReset hn hb)
  obtain ⟨_, _, _, _, ct, hct, _, hident⟩ := hE.done p hp hf
  exact ⟨ct, hct, by omega⟩

/-- Witness for `waiting_time_identity` on the Scenario B configuration after
5 ticks, at the finished record of P1. -/
theorem waiting_time_identity_witness :
    ∃ ct, (⟨"P1", 3, 0, 0, 2, some 5, true, true⟩ : Process).completionTime = some ct ∧
      (⟨"P1", 3, 0, 0, 2, some 5, true, true⟩ : Process).waitingTime =
        (ct - (⟨"P1", 3, 0, 0, 2, some 5, true, true⟩ : Process).arrivalTime) -
          (⟨"P1", 3, 0, 0, 2, some 5, true, true⟩ : Process).burstTime :=
  waiting_time_identity [⟨"P1", 3, 0⟩, ⟨"P2", 2, 1⟩] (some 2) (by decide) (by decide) 5
    ⟨"P1", 3, 0, 0, 2, some 5, true, true⟩ (by decide) (by decide)

/-- C7: at every state reachable from reset by ticks (distinct ids, positive
bursts), a process occupies at most one location: the ready queue holds no
duplicates, the CPU occupant is not in the ready queue, and a finished process
is neither in the ready queue nor the CPU occupant. -/
theorem mutual_exclusion (defs : List ProcDef) (qInput : Option Int)
    (hn : (defs.map (fun d => d.id)).Nodup) (hb : ∀ d ∈ defs, 1 ≤ d.burstTime)
    (n : Nat) :
    (runTicks qInput (deepReset defs) n).readyQueue.Nodup ∧
    (∀ c, (runTicks qInput (deepReset defs) n).currentCPU = some c →
      c.proc ∉ (runTicks qInput (deepReset defs) n).readyQueue) ∧
    (∀ p ∈ (runTicks qInput (deepReset defs) n).processes, p.finished = true →
      p.id ∉ (runTicks qInput (deepReset defs) n).readyQueue ∧
      ¬ onCPU (runTicks qInput (deepReset defs) n) p.id) := by
  obtain ⟨hE, _⟩ := inv_runTicks qInput n (inv_deepReset hn hb)
  refine ⟨hE.queue_nodup, hE.cpu_queue, ?_⟩
  intro p hp hf
  obtain ⟨_, _, hq, hcpu, _⟩ := hE.done p hp hf
  exact ⟨hq, hcpu⟩

/-- Witness for `mutual_exclusion` on the Scenario B configuration after
2 ticks (queue holds P2 then P1, CPU idle). -/
theorem mutual_exclusion_witness :
    (runTicks (some 2) (deepReset [⟨"P1", 3, 0⟩, ⟨"P2", 2, 1⟩]) 2).readyQueue.Nodup ∧
    (∀ c, (runTicks (some 2) (deepReset [⟨"P1", 3, 0⟩, ⟨"P2", 2, 1⟩]) 2).currentCPU = some c →
      c.proc ∉ (runTicks (some 2) (deepReset [⟨"P1", 3, 0⟩, ⟨"P2", 2, 1⟩]) 2).readyQueue) ∧
    (∀ p ∈ (runTicks (some 2) (deepReset [⟨"P1", 3, 0⟩, ⟨"P2", 2, 1⟩]) 2).processes,
      p.finished = true →
      p.id ∉ (runTicks (some 2) (deepReset [⟨"P1", 3, 0⟩, ⟨"P2", 2, 1⟩]) 2).readyQueue ∧
      ¬ onCPU (runTicks (some 2) (deepReset [⟨"P1", 3, 0⟩, ⟨"P2", 2, 1⟩]) 2) p.id) :=
  mutual_exclusion [⟨"P1", 3, 0⟩, ⟨"P2", 2, 1⟩] (some 2) (by decide) (by decide) 2

/-- C6, amended: at any reachable all-finished state (distinct ids, positive
bursts), a further `tick()` call leaves the ready queue, the CPU slot and every
process record unchanged, but still advances the clock by exactly 1 (the idle
branch of `tick` increments `currentTime` unconditionally). -/
theorem tick_after_completion_clock_only (defs : List ProcDef) (qInput : Option Int)
    (hn : (defs.map (fun d => d.id)).Nodup) (hb : ∀ d ∈ defs, 1 ≤ d.burstTime)
    (n : Nat) (hf : allFinished (runTicks qInput (deepReset defs) n) = true) :
    tick qInput (runTicks qInput (deepReset defs) n) =
      { runTicks qInput (deepReset defs) n with
        currentTime := (runTicks qInput (deepReset defs) n).currentTime + 1 } := by
  obtain ⟨hE, _⟩ := inv_runTicks qInput n (inv_deepReset hn hb)
  exact tick_noop_after_completion qInput hE (List.all_eq_true.mp hf)

/-- Witness for `tick_after_completion_clock_only` on a one-process
configuration that is finished after one tick. -/
theorem tick_after_completion_clock_only_witness :
    tick (some 1) (runTicks (some 1) (deepReset [⟨"P1", 1, 0⟩]) 1) =
      { runTicks (some 1) (deepReset [⟨"P1", 1, 0⟩]) 1 with
        currentTime := (runTicks (some 1) (deepReset [⟨"P1", 1, 0⟩]) 1).currentTime + 1 } :=
  tick_after_completion_clock_only [⟨"P1", 1, 0⟩] (some 1) (by decide) (by decide) 1 (by decide)

/-- C2: Scenario B.  From reset with P1 (burst 3, arrival 0), P2 (burst 2,
arrival 1) and quantum 2: the pre-scan of tick 1 enqueues only P1; after tick 1
P1 is running (one quantum unit left) and P2 has arrived in the post-execution
scan and sits alone in the queue; at the end of tick 2 P1 is preempted and
queued behind P2; P2 runs during ticks 3-4 and finishes with completion time 4;
P1 resumes and finishes with completion time 5; the final waiting times are
2 for P1 and 1 for P2. -/
theorem scenarioB_trace :
    (arrivalsStep (deepReset [⟨"P1", 3, 0⟩, ⟨"P2", 2, 1⟩])).readyQueue = ["P1"] ∧
    (runTicks (some 2) (deepReset [⟨"P1", 3, 0⟩, ⟨"P2", 2, 1⟩]) 1).currentCPU = some ⟨"P1", 1⟩ ∧
    (runTicks (some 2) (deepReset [⟨"P1", 3, 0⟩, ⟨"P2", 2, 1⟩]) 1).readyQueue = ["P2"] ∧
    (runTicks (some 2) (deepReset [⟨"P1", 3, 0⟩, ⟨"P2", 2, 1⟩]) 1).currentTime = 1 ∧
    (runTicks (some 2) (deepReset [⟨"P1", 3, 0⟩, ⟨"P2", 2, 1⟩]) 2).currentCPU = none ∧
    (runTicks (some 2) (deepReset [⟨"P1", 3, 0⟩, ⟨"P2", 2, 1⟩]) 2).readyQueue = ["P2", "P1"] ∧
    (runTicks (some 2) (deepReset [⟨"P1", 3, 0⟩, ⟨"P2", 2, 1⟩]) 3).currentCPU = some ⟨"P2", 1⟩ ∧
    (runTicks (some 2) (deepReset [⟨"P1", 3, 0⟩, ⟨"P2", 2, 1⟩]) 4).currentCPU = none ∧
    findProc (runTicks (some 2) (deepReset [⟨"P1", 3, 0⟩, ⟨"P2", 2, 1⟩]) 4).processes "P2" =
      some ⟨"P2", 2, 1, 0, 1, some 4, true, true⟩ ∧
    findProc (runTicks (some 2) (deepReset [⟨"P1", 3, 0⟩, ⟨"P2", 2, 1⟩]) 5).processes "P1" =
      some ⟨"P1", 3, 0, 0, 2, some 5, true, true⟩ ∧
    allFinished (runTicks (some 2) (deepReset [⟨"P1", 3, 0⟩, ⟨"P2", 2, 1⟩]) 5) = true := by
  decide

/-- C5, counterexample: a quantum input of 0 (non-positive) is not rejected at
configuration time.  `getQuantum` substitutes the default 1, reset succeeds,
and the simulation proceeds: one tick from reset changes the state and even
runs the single process to completion. -/
theorem quantum_zero_not_rejected :
    getQuantum (some 0) = 1 ∧
    runTicks (some 0) (deepReset [⟨"P1", 1, 0⟩]) 1 ≠ deepReset [⟨"P1", 1, 0⟩] ∧
    allFinished (runTicks (some 0) (deepReset [⟨"P1", 1, 0⟩]) 1) = true := by
  decide

/-- C5, amended: a non-positive quantum input is not rejected and does not
stop the simulation; `getQuantum` substitutes the default quantum 1, so the
engine behaves exactly as if the configured quantum were 1. -/
theorem nonpos_quantum_defaults_to_one (q : Int) (h : q ≤ 0) (s : EngineState) :
    getQuantum (some q) = 1 ∧ tick (some q) s = tick (some 1) s := by
  have hq : getQuantum (some q) = 1 := by
    simp [getQuantum]
    intro h2
    omega
  refine ⟨hq, ?_⟩
  have h1 : getQuantum (some 1) = 1 := by simp [getQuantum]
  simp [tick, hq, h1]

/-- Witness for `nonpos_quantum_defaults_to_one` at quantum input 0 and the
reset state of a one-process configuration. -/
theorem nonpos_quantum_defaults_to_one_witness :
    getQuantum (some 0) = 1 ∧
    tick (some 0) (deepReset [⟨"P1", 1, 0⟩]) = tick (some 1) (deepReset [⟨"P1", 1, 0⟩]) :=
  nonpos_quantum_defaults_to_one 0 (by decide) (deepReset [⟨"P1", 1, 0⟩])

/-- C6, counterexample: after the single process of this configuration has
finished (all-finished after one tick), a further `tick()` call is not a
no-op: the clock still advances, so the state changes. -/
theorem tick_after_completion_not_noop :
    allFinished (runTicks (some 1) (deepReset [⟨"P1", 1, 0⟩]) 1) = true ∧
    tick (some 1) (runTicks (some 1) (deepReset [⟨"P1", 1, 0⟩]) 1) ≠
      runTicks (some 1) (deepReset [⟨"P1", 1, 0⟩]) 1 := by
  decide

/-- C9, counterexample: with P1 (burst 1, arrival 0) and P2 (burst 1,
arrival 5) the sum of burst times is 2 and there are no idle ticks before the
first arrival (P1 arrives at time 0), yet after 2 ticks the simulation is not
complete: the idle gap between P1's completion and P2's arrival is not covered
by the claimed bound.  Completion is in fact reached within
sum-of-bursts + max-arrival = 7 ticks. -/
theorem termination_bound_counterexample :
    (([⟨"P1", 1, 0⟩, ⟨"P2", 1, 5⟩] : List ProcDef).map (fun d => d.burstTime)).sum = 2 ∧
    (deepReset [⟨"P1", 1, 0⟩, ⟨"P2", 1, 5⟩]).currentTime = 0 ∧
    (arrivalsStep (deepReset [⟨"P1", 1, 0⟩, ⟨"P2", 1, 5⟩])).readyQueue = ["P1"] ∧
    allFinished (runTicks (some 1) (deepReset [⟨"P1", 1, 0⟩, ⟨"P2", 1, 5⟩]) 2) = false ∧
    allFinished (runTicks (some 1) (deepReset [⟨"P1", 1, 0⟩, ⟨"P2", 1, 5⟩]) 7) = true := by
  decide

/-! ### Termination machinery -/

theorem map_proj_of_pres {α : Type} {ps : List Process} {g : Process → Process}
    (π : Process → α) (hg : ∀ p, π (g p) = π p) :
    (ps.map g).map π = ps.map π := by
  rw [List.map_map]
  apply List.map_congr_left
  intro p hp
  simp [Function.comp, hg]

theorem map_proj_updateProc {α : Type} (π : Process → α) {f : Process → Process}
    (hf : ∀ p, π (f p) = π p) (ps : List Process) (i : String) :
    (updateProc ps i f).map π = ps.map π := by
  rw [updateProc_eq_map]
  exact map_proj_of_pres π (fun p => by by_cases hh : p.id = i <;> simp [hh, hf])

theorem arrivalTimes_arrivalsStep (s : EngineState) :
    (arrivalsStep s).processes.map (fun p => p.arrivalTime) =
      s.processes.map (fun p => p.arrivalTime) := by
  rw [arrivalsStep_processes]
  exact map_proj_of_pres _ (fun p => arriveOne_arrivalTime s.currentTime p)

theorem arrivalTimes_execStep (s : EngineState) :
    (execStep s).processes.map (fun p => p.arrivalTime) =
      s.processes.map (fun p => p.arrivalTime) := by
  rcases hc : s.currentCPU with _ | c
  · rw [execStep_none hc]
  · rw [execStep_processes_some hc]
    exact map_proj_of_pres _ (fun p => execOne_arrivalTime s.readyQueue c.proc p)

theorem arrivalTimes_settleStep (s : EngineState) :
    (settleStep s).processes.map (fun p => p.arrivalTime) =
      s.processes.map (fun p => p.arrivalTime) := by
  unfold settleStep
  repeat' split
  any_goals rfl
  exact map_proj_updateProc _ (fun p => finishAt_arrivalTime s.currentTime p) _ _

theorem arrivalTimes_tick (qInput : Option Int) (s : EngineState) :
    (tick qInput s).processes.map (fun p => p.arrivalTime) =
      s.processes.map (fun p => p.arrivalTime) := by
  show (settleStep (arrivalsStep (execStep
    (dispatchStep (getQuantum qInput).toNat (arrivalsStep s))))).processes.map _ = _
  rw [arrivalTimes_settleStep, arrivalTimes_arrivalsStep, arrivalTimes_execStep,
    dispatchStep_processes, arrivalTimes_arrivalsStep]

theorem maxArrival_tick (qInput : Option Int) (s : EngineState) :
    maxArrival (tick qInput s) = maxArrival s := by
  unfold maxArrival
  rw [arrivalTimes_tick]

theorem le_foldr_max : ∀ (l : List Nat) (x : Nat), x ∈ l → x ≤ l.foldr max 0 := by
  intro l
  induction l with
  | nil => exact fun x hx => absurd hx (List.not_mem_nil _)
  | cons a l ih =>
    intro x hx
    rcases List.mem_cons.mp hx with rfl | hmem
    · exact le_max_left _ _
    · exact le_trans (ih x hmem) (le_max_right _ _)

theorem le_maxArrival {s : EngineState} {p : Process} (hp : p ∈ s.processes) :
    p.arrivalTime ≤ maxArrival s :=
  le_foldr_max _ _ (List.mem_map_of_mem _ hp)

theorem totalRem_arrivalsStep (s : EngineState) :
    totalRem (arrivalsStep s) = totalRem s := by
  unfold totalRem
  rw [arrivalsStep_processes]
  rw [map_proj_of_pres _ (fun p => arriveOne_remainingTime s.currentTime p)]

theorem totalRem_dispatchStep (qn : Nat) (s : EngineState) :
    totalRem (dispatchStep qn s) = totalRem s := by
  unfold totalRem
  rw [dispatchStep_processes]

theorem totalRem_settleStep (s : EngineState) :
    totalRem (settleStep s) = totalRem s := by
  unfold totalRem settleStep
  repeat' split
  any_goals rfl
  exact congrArg List.sum (map_proj_updateProc _ (fun p => finishAt_remainingTime _ p) _ _)

theorem totalRem_execStep_none {s : EngineState} (hc : s.currentCPU = none) :
    totalRem (execStep s) = totalRem s := by
  unfold totalRem
  rw [execStep_none hc]

theorem sum_map_dec_at :
    ∀ (ps : List Process) (i : String) (r : Process),
      (ps.map (fun p => p.id)).Nodup → r ∈ ps → r.id = i → 1 ≤ r.remainingTime →
      (ps.map (fun p => if p.id = i then p.remainingTime - 1 else p.remainingTime)).sum + 1 =
        (ps.map (fun p => p.remainingTime)).sum := by
  intro ps
  induction ps with
  | nil => exact fun i r _ hr => absurd hr (List.not_mem_nil _)
  | cons p rest ih =>
    intro i r hn hr hid h1
    have hn' : ((p :: rest).map (fun p => p.id)).Nodup := hn
    rw [List.map_cons, List.nodup_cons] at hn'
    rcases List.mem_cons.mp hr with rfl | hmem
    · rw [List.map_cons, List.map_cons, List.sum_cons, List.sum_cons, if_pos hid]
      have hrest : rest.map (fun p => if p.id = i then p.remainingTime - 1 else p.remainingTime)
          = rest.map (fun p => p.remainingTime) := by
        apply List.map_congr_left
        intro q hq
        have hqe : q.id ≠ i := by
          intro hcontra
          exact hn'.1 (by rw [hid, ← hcontra]; exact List.mem_map_of_mem _ hq)
        rw [if_neg hqe]
      rw [hrest]
      omega
    · have hpne : p.id ≠ i := by
        intro hpe
        exact hn'.1 (by rw [hpe, ← hid]; exact List.mem_map_of_mem _ hmem)
      rw [List.map_cons, List.map_cons, List.sum_cons, List.sum_cons, if_neg hpne]
      have := ih i r hn'.2 hmem hid h1
      omega

theorem totalRem_execStep_some {s : EngineState} {c : CPUSlot} {r : Process}
    (hc : s.currentCPU = some c) (hn : (s.processes.map (fun p => p.id)).Nodup)
    (hrmem : r ∈ s.processes) (hrid : r.id = c.proc) (hr1 : 1 ≤ r.remainingTime) :
    totalRem (execStep s) + 1 = totalRem s := by
  unfold totalRem
  rw [execStep_processes_some hc, List.map_map]
  have hcong : ∀ p ∈ s.processes,
      ((fun p => p.remainingTime) ∘ execOne s.readyQueue c.proc) p =
        (fun p => if p.id = c.proc then p.remainingTime - 1 else p.remainingTime) p := by
    intro p hp
    simp [Function.comp, execOne_remainingTime]
  rw [List.map_congr_left hcong]
  exact sum_map_dec_at s.processes c.proc r hn hrmem hrid hr1

theorem measure_decrease (qInput : Option Int) {s : EngineState} (h : Inv s)
    (hnf : allFinished s = false) :
    totalRem (tick qInput s) + (maxArrival (tick qInput s) - (tick qInput s).currentTime) <
      totalRem s + (maxArrival s - s.currentTime) := by
  obtain ⟨hE, hR⟩ := h
  have h1E := invE_arrivalsStep hE
  have h1R := remPos_arrivalsStep hR
  have h1S := scanned_arrivalsStep s
  have h2E := invE_dispatchStep (getQuantum qInput).toNat h1E
  have h2R := remPos_dispatchStep (getQuantum qInput).toNat h1R
  have hclock := tick_currentTime qInput s
  have hmax := maxArrival_tick qInput s
  rcases hc : (dispatchStep (getQuantum qInput).toNat (arrivalsStep s)).currentCPU with _ | c
  · obtain ⟨hc0, hq0, heq⟩ := dispatchStep_none_inv hc
    have htr : totalRem (tick qInput s) = totalRem s := by
      show totalRem (settleStep (arrivalsStep (execStep
        (dispatchStep (getQuantum qInput).toNat (arrivalsStep s))))) = _
      rw [totalRem_settleStep, totalRem_arrivalsStep, heq,
        totalRem_execStep_none hc0, totalRem_arrivalsStep]
    obtain ⟨p, hp, hpf⟩ : ∃ p ∈ s.processes, p.finished = false := by
      by_contra hcon
      push_neg at hcon
      have hall : allFinished s = true := by
        unfold allFinished
        rw [List.all_eq_true]
        intro x hx
        have := hcon x hx
        revert this
        cases x.finished <;> simp
      rw [hall] at hnf
      simp at hnf
    have hp1 : arriveOne s.currentTime p ∈ (arrivalsStep s).processes := by
      rw [arrivalsStep_processes]
      exact List.mem_map_of_mem _ hp
    have hp1f : (arriveOne s.currentTime p).finished = false := by simp [hpf]
    have hp1a : (arriveOne s.currentTime p).arrived = false := by
      by_contra hcon
      rw [Bool.not_eq_false] at hcon
      obtain ⟨hloc, _⟩ := h1E.active _ hp1 hcon hp1f
      rcases hloc with hqm | hcpu
      · rw [hq0] at hqm
        exact absurd hqm (List.not_mem_nil _)
      · obtain ⟨c', hc', _⟩ := hcpu
        rw [hc0] at hc'
        exact absurd hc' (by simp)
    have hlt : s.currentTime < (arriveOne s.currentTime p).arrivalTime := by
      have := h1S _ hp1 hp1a
      rw [arrivalsStep_currentTime] at this
      exact this
    have hbound : p.arrivalTime ≤ maxArrival s := le_maxArrival hp
    rw [htr, hclock, hmax]
    simp only [arriveOne_arrivalTime] at hlt
    omega
  · obtain ⟨r, hrmem, hrid, hrarr, hrfin⟩ := h2E.cpu_mem c hc
    have hr1 : 1 ≤ r.remainingTime := h2R r hrmem hrfin
    have htr : totalRem (tick qInput s) + 1 = totalRem s := by
      show totalRem (settleStep (arrivalsStep (execStep
        (dispatchStep (getQuantum qInput).toNat (arrivalsStep s))))) + 1 = _
      rw [totalRem_settleStep, totalRem_arrivalsStep,
        totalRem_execStep_some hc h2E.ids_nodup hrmem hrid hr1,
        totalRem_dispatchStep, totalRem_arrivalsStep]
    rw [hclock, hmax]
    omega

theorem allFinished_mono_map {ps : List Process} {g : Process → Process}
    (hg : ∀ p, p.finished = true → (g p).finished = true)
    (h : ∀ p ∈ ps, p.finished = true) : ∀ p' ∈ ps.map g, p'.finished = true := by
  intro p' hp'
  obtain ⟨p, hp, rfl⟩ := List.mem_map.mp hp'
  exact hg p (h p hp)

theorem fin_arrivalsStep {s : EngineState} (h : ∀ p ∈ s.processes, p.finished = true) :
    ∀ p ∈ (arrivalsStep s).processes, p.finished = true := by
  rw [arrivalsStep_processes]
  exact allFinished_mono_map (fun p hp => by simpa using hp) h

theorem fin_execStep {s : EngineState} (h : ∀ p ∈ s.processes, p.finished = true) :
    ∀ p ∈ (execStep s).processes, p.finished = true := by
  rcases hc : s.currentCPU with _ | c
  · rw [execStep_none hc]
    exact h
  · rw [execStep_processes_some hc]
    exact allFinished_mono_map (fun p hp => by simpa using hp) h

theorem fin_settleStep {s : EngineState} (h : ∀ p ∈ s.processes, p.finished = true) :
    ∀ p ∈ (settleStep s).processes, p.finished = true := by
  unfold settleStep
  repeat' split
  any_goals exact h
  rw [updateProc_eq_map]
  refine allFinished_mono_map ?_ h
  intro p hp
  split <;> simp [hp]

theorem allFinished_tick (qInput : Option Int) {s : EngineState}
    (h : allFinished s = true) : allFinished (tick qInput s) = true := by
  unfold allFinished at h ⊢
  rw [List.all_eq_true] at h ⊢
  have h0 : ∀ p ∈ s.processes, p.finished = true := fun p hp => h p hp
  have h1 := fin_arrivalsStep h0
  have h2 : ∀ p ∈ (dispatchStep (getQuantum qInput).toNat (arrivalsStep s)).processes,
      p.finished = true := by
    rw [dispatchStep_processes]
    exact h1
  have h3 := fin_execStep h2
  have h4 := fin_arrivalsStep h3
  have h5 := fin_settleStep h4
  exact fun p hp => h5 p hp

theorem allFinished_runTicks (qInput : Option Int) :
    ∀ (k : Nat) {s : EngineState}, allFinished s = true →
      allFinished (runTicks qInput s k) = true := by
  intro k
  induction k with
  | zero => exact fun h => h
  | succ k ih => exact fun h => ih (allFinished_tick qInput h)

theorem allFinished_of_measure_le (qInput : Option Int) :
    ∀ (k : Nat) (s : EngineState), Inv s →
      totalRem s + (maxArrival s - s.currentTime) ≤ k →
      allFinished (runTicks qInput s k) = true := by
  intro k
  induction k with
  | zero =>
    intro s hInv hle
    have htr : totalRem s = 0 := by omega
    show allFinished s = true
    unfold allFinished
    rw [List.all_eq_true]
    intro p hp
    by_contra hcon
    have hpf : p.finished = false := by
      revert hcon
      cases p.finished <;> simp
    have h1 := hInv.2 p hp hpf
    unfold totalRem at htr
    rw [List.sum_eq_zero_iff] at htr
    have := htr p.remainingTime (List.mem_map_of_mem _ hp)
    omega
  | succ k ih =>
    intro s hInv hle
    by_cases hfin : allFinished s = true
    · show allFinished (runTicks qInput (tick qInput s) k) = true
      exact allFinished_runTicks qInput k (allFinished_tick qInput hfin)
    · have hnf : allFinished s = false := by
        revert hfin
        cases allFinished s <;> simp
      have hdec := measure_decrease qInput hInv hnf
      show allFinished (runTicks qInput (tick qInput s) k) = true
      exact ih (tick qInput s) (inv_tick qInput hInv) (by omega)

/-! ### Single-tick trace lemmas -/

theorem not_in_newArrivals_of_not_arrives {now : Nat} {ps : List Process} {i : String}
    (hn : (ps.map (fun q => q.id)).Nodup) {r : Process} (hr : r ∈ ps) (hrid : r.id = i)
    (hna : arrivesAt now r = false) : i ∉ newArrivals now ps := by
  intro hmem
  obtain ⟨pn, hpn, han, hpid⟩ := mem_newArrivals.mp hmem
  have heq : pn = r := eq_of_mem_id hn hpn hr (by rw [hpid, hrid])
  rw [heq, hna] at han
  exact Bool.noConfusion han

theorem not_in_newArrivals {now : Nat} {ps : List Process} {i : String}
    (hn : (ps.map (fun q => q.id)).Nodup) {r : Process} (hr : r ∈ ps) (hrid : r.id = i)
    (hra : r.arrived = true) : i ∉ newArrivals now ps :=
  not_in_newArrivals_of_not_arrives hn hr hrid (by unfold arrivesAt; simp [hra])

theorem settleStep_find_none {s : EngineState} {c : CPUSlot}
    (hc : s.currentCPU = some c) (hf : findProc s.processes c.proc = none) :
    settleStep s = s := by
  unfold settleStep
  simp only [hc, hf]

theorem dispatchStep_readyQueue_sub (qn : Nat) (s : EngineState) :
    ∀ i ∈ (dispatchStep qn s).readyQueue, i ∈ s.readyQueue := by
  intro i hi
  rcases hc : s.currentCPU with _ | c
  · rcases hq : s.readyQueue with _ | ⟨j, rest⟩
    · rw [dispatchStep_none_nil qn hc hq] at hi
      rw [hq] at hi
      exact hi
    · rw [dispatchStep_none_cons qn hc hq] at hi
      exact List.mem_cons_of_mem j hi
  · rw [dispatchStep_some qn hc] at hi
    exact hi

theorem settleStep_field_pres {s : EngineState} {i : String} {r : Process}
    (hn : (s.processes.map (fun q => q.id)).Nodup) (hr : r ∈ s.processes) (hrid : r.id = i) :
    ∀ p' ∈ (settleStep s).processes, p'.id = i →
      p'.arrived = r.arrived ∧ p'.waitingTime = r.waitingTime := by
  have hbase : ∀ p' ∈ s.processes, p'.id = i →
      p'.arrived = r.arrived ∧ p'.waitingTime = r.waitingTime := by
    intro p' hp' hid'
    have heq := eq_of_mem_id hn hp' hr (by rw [hid', hrid])
    rw [heq]
    exact ⟨rfl, rfl⟩
  rcases hc : s.currentCPU with _ | c
  · rw [settleStep_none hc]
    exact hbase
  · rcases hf : findProc s.processes c.proc with _ | pf
    · rw [settleStep_find_none hc hf]
      exact hbase
    · by_cases h0 : pf.remainingTime = 0
      · rw [settleStep_finish hc hf h0]
        intro p' hp' hid'
        have hp2 : p' ∈ updateProc s.processes c.proc (finishAt s.currentTime) := hp'
        rw [updateProc_eq_map] at hp2
        obtain ⟨p0, hp0, rfl⟩ := List.mem_map.mp hp2
        by_cases hh : p0.id = c.proc
        · rw [if_pos hh] at hid' ⊢
          simp only [finishAt_arrived, finishAt_waitingTime]
          exact hbase p0 hp0 (by rw [← finishAt_id s.currentTime p0]; exact hid')
        · rw [if_neg hh] at hid' ⊢
          exact hbase p0 hp0 hid'
      · by_cases hql : c.qLeft = 0
        · rw [settleStep_expire hc hf h0 hql]
          exact hbase
        · rw [settleStep_stay hc hf h0 hql]
          exact hbase

theorem tick_occupied_settle_input {s : EngineState} {c : CPUSlot} {p : Process}
    (qInput : Option Int) (hc : s.currentCPU = some c)
    (hfp : findProc s.processes c.proc = some p) (ha : p.arrived = true) :
    tick qInput s = settleStep (arrivalsStep (execStep (arrivalsStep s))) ∧
    (arrivalsStep (execStep (arrivalsStep s))).currentCPU = some ⟨c.proc, c.qLeft - 1⟩ ∧
    (arrivalsStep (execStep (arrivalsStep s))).currentTime = s.currentTime + 1 ∧
    (arrivalsStep (execStep (arrivalsStep s))).readyQueue =
      (arrivalsStep s).readyQueue ++
        newArrivals (s.currentTime + 1) (execStep (arrivalsStep s)).processes ∧
    findProc (arrivalsStep (execStep (arrivalsStep s))).processes c.proc =
      some (execOne (arrivalsStep s).readyQueue c.proc p) := by
  have hc1 : (arrivalsStep s).currentCPU = some c := by
    rw [arrivalsStep_currentCPU]
    exact hc
  have hd : dispatchStep (getQuantum qInput).toNat (arrivalsStep s) = arrivalsStep s :=
    dispatchStep_some _ hc1
  refine ⟨?_, ?_, ?_, ?_, ?_⟩
  · show settleStep (arrivalsStep (execStep
      (dispatchStep (getQuantum qInput).toNat (arrivalsStep s)))) = _
    rw [hd]
  · rw [arrivalsStep_currentCPU]
    exact execStep_currentCPU_some hc1
  · rw [arrivalsStep_currentTime, execStep_currentTime, arrivalsStep_currentTime]
  · rw [arrivalsStep_readyQueue, execStep_readyQueue, execStep_currentTime,
      arrivalsStep_currentTime]
  · have hf1 : findProc (arrivalsStep s).processes c.proc = some p := by
      rw [arrivalsStep_processes, findProc_map _ (fun q => arriveOne_id _ q), hfp]
      exact congrArg some (arriveOne_of_arrived _ _ ha)
    have hf3 : findProc (execStep (arrivalsStep s)).processes c.proc =
        some (execOne (arrivalsStep s).readyQueue c.proc p) := by
      rw [execStep_processes_some hc1, findProc_map _ (fun q => execOne_id _ _ q), hf1]
      rfl
    rw [arrivalsStep_processes, findProc_map _ (fun q => arriveOne_id _ q), hf3]
    exact congrArg some (arriveOne_of_arrived _ _ (by simp [ha]))

theorem execStep_ids (s : EngineState) :
    (execStep s).processes.map (fun q => q.id) = s.processes.map (fun q => q.id) := by
  rcases hc : s.currentCPU with _ | c
  · rw [execStep_none hc]
  · rw [execStep_processes_some hc]
    exact map_ids_of_pres (fun q => execOne_id _ _ q)

/-- C4: when the CPU is occupied by an arrived process (unique ids, occupant
not in the queue), a tick bringing its remainingTime to 0 marks it finished
with completionTime equal to the post-increment clock, clears the CPU slot and
does not re-enqueue it — for any quantumRemaining value, in particular when the
quantum also expires in the same tick; only when remainingTime stays positive
and quantumRemaining reaches 0 is the process appended to the ready-queue tail,
unfinished. -/
theorem completion_priority (qInput : Option Int) (s : EngineState) (c : CPUSlot) (p : Process)
    (hc : s.currentCPU = some c)
    (hn : (s.processes.map (fun q => q.id)).Nodup)
    (hfp : findProc s.processes c.proc = some p)
    (ha : p.arrived = true) (hq : c.proc ∉ s.readyQueue) :
    (p.remainingTime = 1 →
      (∀ p' ∈ (tick qInput s).processes, p'.id = c.proc →
        p'.finished = true ∧ p'.completionTime = some (s.currentTime + 1)) ∧
      (tick qInput s).currentCPU = none ∧
      c.proc ∉ (tick qInput s).readyQueue) ∧
    (2 ≤ p.remainingTime → c.qLeft ≤ 1 →
      (∀ p' ∈ (tick qInput s).processes, p'.id = c.proc → p'.finished = p.finished) ∧
      (tick qInput s).currentCPU = none ∧
      ∃ Q, (tick qInput s).readyQueue = Q ++ [c.proc]) := by
  obtain ⟨hteq, hc4, ht4, hq4, hf4⟩ := tick_occupied_settle_input qInput hc hfp ha
  have hpmem := (findProc_mem hfp).1
  have hpid := (findProc_mem hfp).2
  have hc1 : (arrivalsStep s).currentCPU = some c := by
    rw [arrivalsStep_currentCPU]
    exact hc
  have hn1 : ((arrivalsStep s).processes.map (fun q => q.id)).Nodup := by
    rw [arrivalsStep_processes, map_ids_of_pres (fun q => arriveOne_id _ q)]
    exact hn
  have hn3 : ((execStep (arrivalsStep s)).processes.map (fun q => q.id)).Nodup := by
    rw [execStep_ids]
    exact hn1
  have hn4 : ((arrivalsStep (execStep (arrivalsStep s))).processes.map
      (fun q => q.id)).Nodup := by
    rw [arrivalsStep_processes, map_ids_of_pres (fun q => arriveOne_id _ q)]
    exact hn3
  have hp1mem : p ∈ (arrivalsStep s).processes := by
    rw [arrivalsStep_processes]
    have hmm := List.mem_map_of_mem (arriveOne s.currentTime) hpmem
    rw [arriveOne_of_arrived _ _ ha] at hmm
    exact hmm
  have hp3mem : execOne (arrivalsStep s).readyQueue c.proc p ∈
      (execStep (arrivalsStep s)).processes := by
    rw [execStep_processes_some hc1]
    exact List.mem_map_of_mem _ hp1mem
  have hnotq4 : c.proc ∉ (arrivalsStep (execStep (arrivalsStep s))).readyQueue := by
    rw [hq4]
    intro hmem
    rcases List.mem_append.mp hmem with hm1 | hm4
    · rw [arrivalsStep_readyQueue] at hm1
      rcases List.mem_append.mp hm1 with hm0 | hmn
      · exact hq hm0
      · exact not_in_newArrivals hn hpmem hpid ha hmn
    · exact not_in_newArrivals hn3 hp3mem (by simp [hpid]) (by simp [ha]) hm4
  constructor
  · intro h1
    have hrem : (execOne (arrivalsStep s).readyQueue c.proc p).remainingTime = 0 := by
      rw [execOne_remainingTime, if_pos hpid, h1]
    have hs := settleStep_finish hc4 hf4 hrem
    rw [hteq, hs]
    refine ⟨?_, rfl, hnotq4⟩
    intro p' hp' hpid'
    have hp2 : p' ∈ updateProc (arrivalsStep (execStep (arrivalsStep s))).processes c.proc
        (finishAt (arrivalsStep (execStep (arrivalsStep s))).currentTime) := hp'
    rw [updateProc_eq_map] at hp2
    obtain ⟨p0, hp0, rfl⟩ := List.mem_map.mp hp2
    by_cases hh : p0.id = c.proc
    · rw [if_pos hh]
      refine ⟨rfl, ?_⟩
      rw [finishAt_completionTime, ht4]
    · rw [if_neg hh] at hpid'
      exact absurd hpid' hh
  · intro h2 hql
    have hrem : (execOne (arrivalsStep s).readyQueue c.proc p).remainingTime ≠ 0 := by
      rw [execOne_remainingTime, if_pos hpid]
      omega
    have hq0 : (⟨c.proc, c.qLeft - 1⟩ : CPUSlot).qLeft = 0 := by
      show c.qLeft - 1 = 0
      omega
    have hs := settleStep_expire hc4 hf4 hrem hq0
    rw [hteq, hs]
    refine ⟨?_, rfl, ⟨(arrivalsStep (execStep (arrivalsStep s))).readyQueue, rfl⟩⟩
    intro p' hp' hpid'
    have hp2 : p' ∈ (arrivalsStep (execStep (arrivalsStep s))).processes := hp'
    have hmem4 := (findProc_mem hf4).1
    have heq : p' = execOne (arrivalsStep s).readyQueue c.proc p :=
      eq_of_mem_id hn4 hp2 hmem4 (by rw [hpid', execOne_id]; exact hpid.symm)
    rw [heq]
    exact execOne_finished _ _ p

/-- Witness for `completion_priority`: a single running process with one unit
left (first part, with the quantum also expiring), and a two-unit process with
an expiring quantum (second part, via a second application input). -/
theorem completion_priority_witness :
    ((⟨"P1", 2, 0, 1, 0, none, true, false⟩ : Process).remainingTime = 1 →
      (∀ p' ∈ (tick (some 1) (⟨[⟨"P1", 2, 0, 1, 0, none, true, false⟩], [], 1,
          some ⟨"P1", 1⟩⟩ : EngineState)).processes, p'.id = "P1" →
        p'.finished = true ∧ p'.completionTime = some (1 + 1)) ∧
      (tick (some 1) (⟨[⟨"P1", 2, 0, 1, 0, none, true, false⟩], [], 1,
        some ⟨"P1", 1⟩⟩ : EngineState)).currentCPU = none ∧
      "P1" ∉ (tick (some 1) (⟨[⟨"P1", 2, 0, 1, 0, none, true, false⟩], [], 1,
        some ⟨"P1", 1⟩⟩ : EngineState)).readyQueue) ∧
    (2 ≤ (⟨"P1", 2, 0, 1, 0, none, true, false⟩ : Process).remainingTime →
      (⟨"P1", 1⟩ : CPUSlot).qLeft ≤ 1 →
      (∀ p' ∈ (tick (some 1) (⟨[⟨"P1", 2, 0, 1, 0, none, true, false⟩], [], 1,
          some ⟨"P1", 1⟩⟩ : EngineState)).processes, p'.id = "P1" →
        p'.finished = (⟨"P1", 2, 0, 1, 0, none, true, false⟩ : Process).finished) ∧
      (tick (some 1) (⟨[⟨"P1", 2, 0, 1, 0, none, true, false⟩], [], 1,
        some ⟨"P1", 1⟩⟩ : EngineState)).currentCPU = none ∧
      ∃ Q, (tick (some 1) (⟨[⟨"P1", 2, 0, 1, 0, none, true, false⟩], [], 1,
        some ⟨"P1", 1⟩⟩ : EngineState)).readyQueue = Q ++ ["P1"]) :=
  completion_priority (some 1)
    ⟨[⟨"P1", 2, 0, 1, 0, none, true, false⟩], [], 1, some ⟨"P1", 1⟩⟩
    ⟨"P1", 1⟩ ⟨"P1", 2, 0, 1, 0, none, true, false⟩
    (by decide) (by decide) (by decide) (by decide) (by decide)

/-- C3: in every tick in which the running (arrived, unique-id) process is
preempted on quantum expiry, the preempted process ends the tick as the last
element of the ready queue, and every process whose arrival condition is met at
the post-execution clock value (including post-scan arrivals at time t+1) is in
the queue in front of it. -/
theorem preempted_behind_same_tick_arrivals (qInput : Option Int) (s : EngineState)
    (c : CPUSlot) (p : Process)
    (hc : s.currentCPU = some c)
    (hn : (s.processes.map (fun q => q.id)).Nodup)
    (hfp : findProc s.processes c.proc = some p)
    (ha : p.arrived = true) (h2 : 2 ≤ p.remainingTime) (hql : c.qLeft ≤ 1) :
    ∃ Q, (tick qInput s).readyQueue = Q ++ [c.proc] ∧
      ∀ r ∈ s.processes, r.arrived = false → r.arrivalTime ≤ s.currentTime + 1 →
        r.id ∈ Q := by
  obtain ⟨hteq, hc4, ht4, hq4, hf4⟩ := tick_occupied_settle_input qInput hc hfp ha
  have hpid := (findProc_mem hfp).2
  have hc1 : (arrivalsStep s).currentCPU = some c := by
    rw [arrivalsStep_currentCPU]
    exact hc
  have hrem : (execOne (arrivalsStep s).readyQueue c.proc p).remainingTime ≠ 0 := by
    rw [execOne_remainingTime, if_pos hpid]
    omega
  have hq0 : (⟨c.proc, c.qLeft - 1⟩ : CPUSlot).qLeft = 0 := by
    show c.qLeft - 1 = 0
    omega
  have hs := settleStep_expire hc4 hf4 hrem hq0
  refine ⟨(arrivalsStep (execStep (arrivalsStep s))).readyQueue, ?_, ?_⟩
  · rw [hteq, hs]
  · intro r hr hra hrt
    rw [hq4]
    by_cases hle : r.arrivalTime ≤ s.currentTime
    · apply List.mem_append_left
      rw [arrivalsStep_readyQueue]
      apply List.mem_append_right
      exact mem_newArrivals.mpr ⟨r, hr, (arrivesAt_iff _ _).mpr ⟨hra, hle⟩, rfl⟩
    · have hr1mem : r ∈ (arrivalsStep s).processes := by
        rw [arrivalsStep_processes]
        have hmm := List.mem_map_of_mem (arriveOne s.currentTime) hr
        rw [arriveOne_of_not_le hle] at hmm
        exact hmm
      have hr3mem : execOne (arrivalsStep s).readyQueue c.proc r ∈
          (execStep (arrivalsStep s)).processes := by
        rw [execStep_processes_some hc1]
        exact List.mem_map_of_mem _ hr1mem
      apply List.mem_append_right
      refine mem_newArrivals.mpr
        ⟨execOne (arrivalsStep s).readyQueue c.proc r, hr3mem, ?_, by simp⟩
      exact (arrivesAt_iff _ _).mpr ⟨by simp [hra], by simp [hrt]⟩

/-- Witness for `preempted_behind_same_tick_arrivals`: P1 is preempted at the
end of the tick while P2 (arrival time 2 = post-execution clock) arrives in the
post scan. -/
theorem preempted_behind_same_tick_arrivals_witness :
    ∃ Q, (tick (some 1) (⟨[⟨"P1", 3, 0, 2, 0, none, true, false⟩,
        ⟨"P2", 1, 2, 1, 0, none, false, false⟩], [], 1,
        some ⟨"P1", 1⟩⟩ : EngineState)).readyQueue = Q ++ ["P1"] ∧
      ∀ r ∈ (⟨[⟨"P1", 3, 0, 2, 0, none, true, false⟩,
          ⟨"P2", 1, 2, 1, 0, none, false, false⟩], [], 1,
          some ⟨"P1", 1⟩⟩ : EngineState).processes,
        r.arrived = false → r.arrivalTime ≤ 1 + 1 → r.id ∈ Q :=
  preempted_behind_same_tick_arrivals (some 1)
    ⟨[⟨"P1", 3, 0, 2, 0, none, true, false⟩, ⟨"P2", 1, 2, 1, 0, none, false, false⟩],
      [], 1, some ⟨"P1", 1⟩⟩
    ⟨"P1", 1⟩ ⟨"P1", 3, 0, 2, 0, none, true, false⟩
    (by decide) (by decide) (by decide) (by decide) (by decide) (by decide)

/-- C10: a process that becomes arrived during the post-execution arrival scan
of a tick (its arrival time equals the post-increment clock) accrues no
waitingTime during that tick: the per-tick waiting increment for queue
residents happens before the post scan, so the new arrival's waitingTime is
unchanged while its arrived flag is set. -/
theorem post_scan_arrival_no_wait (qInput : Option Int) (s : EngineState) (p : Process)
    (hn : (s.processes.map (fun q => q.id)).Nodup)
    (hp : p ∈ s.processes) (ha : p.arrived = false)
    (hat : p.arrivalTime = s.currentTime + 1)
    (hq : p.id ∉ s.readyQueue) :
    ∀ p' ∈ (tick qInput s).processes, p'.id = p.id →
      p'.arrived = true ∧ p'.waitingTime = p.waitingTime := by
  have hnotle : ¬ p.arrivalTime ≤ s.currentTime := by omega
  have hp1 : p ∈ (arrivalsStep s).processes := by
    rw [arrivalsStep_processes]
    have hmm := List.mem_map_of_mem (arriveOne s.currentTime) hp
    rw [arriveOne_of_not_le hnotle] at hmm
    exact hmm
  have hn1 : ((arrivalsStep s).processes.map (fun q => q.id)).Nodup := by
    rw [arrivalsStep_processes, map_ids_of_pres (fun q => arriveOne_id _ q)]
    exact hn
  have hq1 : p.id ∉ (arrivalsStep s).readyQueue := by
    rw [arrivalsStep_readyQueue]
    intro hmem
    rcases List.mem_append.mp hmem with h0 | hnew
    · exact hq h0
    · exact not_in_newArrivals_of_not_arrives hn hp rfl
        (by unfold arrivesAt; simp [hnotle]) hnew
  have hq2 : p.id ∉ (dispatchStep (getQuantum qInput).toNat (arrivalsStep s)).readyQueue :=
    fun hmem => hq1 (dispatchStep_readyQueue_sub _ _ p.id hmem)
  have hp2 : p ∈ (dispatchStep (getQuantum qInput).toNat (arrivalsStep s)).processes := by
    rw [dispatchStep_processes]
    exact hp1
  have hn2 : ((dispatchStep (getQuantum qInput).toNat
      (arrivalsStep s)).processes.map (fun q => q.id)).Nodup := by
    rw [dispatchStep_processes]
    exact hn1
  obtain ⟨p3, hp3mem, hid3, harr3, hwait3, hat3⟩ :
      ∃ p3 ∈ (execStep (dispatchStep (getQuantum qInput).toNat
          (arrivalsStep s))).processes,
        p3.id = p.id ∧ p3.arrived = false ∧ p3.waitingTime = p.waitingTime ∧
        p3.arrivalTime = p.arrivalTime := by
    rcases hc2 : (dispatchStep (getQuantum qInput).toNat
        (arrivalsStep s)).currentCPU with _ | c2
    · refine ⟨p, ?_, rfl, ha, rfl, rfl⟩
      rw [execStep_none hc2]
      exact hp2
    · refine ⟨execOne (dispatchStep (getQuantum qInput).toNat
        (arrivalsStep s)).readyQueue c2.proc p, ?_, by simp, by simp [ha], ?_, by simp⟩
      · rw [execStep_processes_some hc2]
        exact List.mem_map_of_mem _ hp2
      · rw [execOne_waitingTime, List.count_eq_zero.mpr hq2]
        rfl
  have hn3 : ((execStep (dispatchStep (getQuantum qInput).toNat
      (arrivalsStep s))).processes.map (fun q => q.id)).Nodup := by
    rw [execStep_ids]
    exact hn2
  have ht3 : (execStep (dispatchStep (getQuantum qInput).toNat
      (arrivalsStep s))).currentTime = s.currentTime + 1 := by
    rw [execStep_currentTime, dispatchStep_currentTime, arrivalsStep_currentTime]
  have harr4 : (arriveOne (execStep (dispatchStep (getQuantum qInput).toNat
      (arrivalsStep s))).currentTime p3).arrived = true := by
    rw [arriveOne_arrived, harr3, ht3, hat3, hat]
    simp
  have hp4mem : arriveOne (execStep (dispatchStep (getQuantum qInput).toNat
      (arrivalsStep s))).currentTime p3 ∈
      (arrivalsStep (execStep (dispatchStep (getQuantum qInput).toNat
        (arrivalsStep s)))).processes := by
    rw [arrivalsStep_processes]
    exact List.mem_map_of_mem _ hp3mem
  have hn4 : ((arrivalsStep (execStep (dispatchStep (getQuantum qInput).toNat
      (arrivalsStep s)))).processes.map (fun q => q.id)).Nodup := by
    rw [arrivalsStep_processes, map_ids_of_pres (fun q => arriveOne_id _ q)]
    exact hn3
  have hfinal := settleStep_field_pres hn4 hp4mem
    (show (arriveOne (execStep (dispatchStep (getQuantum qInput).toNat
      (arrivalsStep s))).currentTime p3).id = p.id by simp [hid3])
  intro p' hp' hpid'
  have hres := hfinal p' hp' hpid'
  constructor
  · rw [hres.1, harr4]
  · rw [hres.2]
    simp [hwait3]

/-- Witness for `post_scan_arrival_no_wait`: an idle tick during which P2
(arrival time 2, equal to the post-increment clock) arrives in the post scan
with zero waiting time. -/
theorem post_scan_arrival_no_wait_witness :
    (⟨"P2", 1, 2, 1, 0, none, true, false⟩ : Process).arrived = true ∧
    (⟨"P2", 1, 2, 1, 0, none, true, false⟩ : Process).waitingTime =
      (⟨"P2", 1, 2, 1, 0, none, false, false⟩ : Process).waitingTime :=
  post_scan_arrival_no_wait (some 1)
    ⟨[⟨"P2", 1, 2, 1, 0, none, false, false⟩], [], 1, none⟩
    ⟨"P2", 1, 2, 1, 0, none, false, false⟩
    (by decide) (by decide) (by decide) (by decide) (by decide)
    ⟨"P2", 1, 2, 1, 0, none, true, false⟩ (by decide) (by decide)

/-- C9, amended: for every configuration with distinct ids and positive burst
times, repeated `tick()` calls from reset reach the all-finished state within
a number of ticks equal to the sum of all burst times plus the maximum arrival
time (idle ticks can occur at any arrival gap, not only before the first
arrival, so the maximum arrival time — not the idle ticks before the first
arrival — bounds the idle portion). -/
theorem termination_bursts_plus_max_arrival (defs : List ProcDef) (qInput : Option Int)
    (hn : (defs.map (fun d => d.id)).Nodup) (hb : ∀ d ∈ defs, 1 ≤ d.burstTime) :
    allFinished (runTicks qInput (deepReset defs)
      ((defs.map (fun d => d.burstTime)).sum +
        (defs.map (fun d => d.arrivalTime)).foldr max 0)) = true := by
  apply allFinished_of_measure_le qInput _ _ (inv_deepReset hn hb)
  have h1 : totalRem (deepReset defs) = (defs.map (fun d => d.burstTime)).sum := by
    unfold totalRem
    show ((defs.map initProc).map (fun p => p.remainingTime)).sum = _
    rw [List.map_map]
    rfl
  have h2 : maxArrival (deepReset defs) = (defs.map (fun d => d.arrivalTime)).foldr max 0 := by
    unfold maxArrival
    show ((defs.map initProc).map (fun p => p.arrivalTime)).foldr max 0 = _
    rw [List.map_map]
    rfl
  rw [h1, h2]
  omega

/-- Witness for `termination_bursts_plus_max_arrival` on the gapped-arrival
configuration P1 (burst 1, arrival 0), P2 (burst 1, arrival 5): the bound is
2 + 5 = 7 ticks. -/
theorem termination_bursts_plus_max_arrival_witness :
    allFinished (runTicks (some 1) (deepReset [⟨"P1", 1, 0⟩, ⟨"P2", 1, 5⟩])
      ((([⟨"P1", 1, 0⟩, ⟨"P2", 1, 5⟩] : List ProcDef).map (fun d => d.burstTime)).sum +
        (([⟨"P1", 1, 0⟩, ⟨"P2", 1, 5⟩] : List ProcDef).map
          (fun d => d.arrivalTime)).foldr max 0)) = true :=
  termination_bursts_plus_max_arrival [⟨"P1", 1, 0⟩, ⟨"P2", 1, 5⟩] (some 1)
    (by decide) (by decide)

end RR
